import Mathlib

/-!
Shallow embedding of the symbolic-execution exploration engine of SeeWasm
(`src/octopus/arch/wasm/graph.py`, class `Graph`).

Conventions of the embedding:
* Python `defaultdict(int)` visit counters become total functions
  `String → Int` (for `visit`) and `String → Nat` (for `pre`); the Python
  `set` of cycle headers becomes `String → Bool`.
* The nested dict `bbs_graph : node → {edge_type: node}` becomes
  `String → List (EdgeType × String)` (association list, insertion order).
* Unbounded Python recursion is modelled with an explicit `fuel` argument;
  `none` means the call did not complete within the given stack depth (or a
  Python `KeyError`/`IndexError` was raised).  Every claim is settled either
  for arbitrary sufficient fuel or at a concrete fuel.
* The external collaborators (instruction emulator, SMT solver, interactive
  operator) are parameters of the context structure `Ctx`, exactly at the
  interface used by `graph.py` (`emulate_basic_block`, `solver.check`,
  `ask_user_input` choices).
* A `for` loop whose body can raise is modelled by `optFold`, which threads
  the loop state and propagates `none`.
-/

namespace SeeWasm

/-- The four CFG edge types of `graph.py` (comment at lines 95-96). -/
inductive EdgeType where
  | unconditional
  | fallthrough
  | conditional_true
  | conditional_false
deriving DecidableEq, Repr

/-- Verdicts of `z3.Solver.check()` as observed by `graph.py` line 179. -/
inductive SolverResult where
  | sat
  | unsat
  | unknown
deriving DecidableEq, Repr

/-- A member of the state lists flowing through `Graph.visit`: either a bare
symbolic state or, after a branching block, a per-edge-type dict of states
(`isinstance(state_item, dict)` discrimination at lines 173, 192, 210). -/
inductive SItem (S : Type) where
  | flat (s : S)
  | branch (m : List (EdgeType × S))
deriving DecidableEq

/-- Association-list lookup, the embedding of a Python dict read `d[k]`
returning `none` where Python would raise `KeyError`. -/
def lookupA {α β : Type} [DecidableEq α] : List (α × β) → α → Option β
  | [], _ => none
  | (t, v) :: r, k => if t = k then some v else lookupA r k

/-- `state_item[type] if isinstance(state_item, dict) else state_item`
(`graph.py` line 192). -/
def SItem.select {S : Type} : SItem S → EdgeType → Option S
  | .flat s, _ => some s
  | .branch m, ty => lookupA m ty

/-- Visit counters of `Graph.visit` (`vis = defaultdict(int)`). -/
abbrev Vis := String → Int

/-- Visit marks of `Graph.pre` (`vis = defaultdict(int)`, only 0/1 used). -/
abbrev VisN := String → Nat

/-- The set `circles` of detected cycle headers. -/
abbrev Circ := String → Bool

/-- The adjacency structure `Graph.bbs_graph`. -/
abbrev Cfg := String → List (EdgeType × String)

/-- Pointwise update of an `Int`-valued counter map. -/
def updVis (vis : Vis) (b : String) (v : Int) : Vis :=
  fun x => if x = b then v else vis x

/-- Pointwise update of a `Nat`-valued mark map. -/
def updN (vis : VisN) (b : String) (v : Nat) : VisN :=
  fun x => if x = b then v else vis x

/-- `circles.add(blk)` (`graph.py` line 142). -/
def updC (c : Circ) (b : String) : Circ :=
  fun x => if x = b then true else c x

/-- Sequential `for` loop over `l` threading state `acc`; `none` (an
exception / missing fuel inside the body) aborts the whole loop. -/
def optFold {α σ : Type} (f : σ → α → Option σ) : σ → List α → Option σ
  | acc, [] => some acc
  | acc, x :: xs =>
    match f acc x with
    | none => none
    | some acc2 => optFold f acc2 xs

/-- Python list indexing `l[i]` including negative indices; `none` is
`IndexError`. -/
def pyIndex {α : Type} (l : List α) (i : Int) : Option α :=
  if 0 ≤ i then
    if i < (l.length : Int) then l.get? i.toNat else none
  else
    if 0 ≤ (l.length : Int) + i then l.get? ((l.length : Int) + i).toNat else none

namespace Graph

/-- `Graph._loop_maximum_rounds = 5` (`graph.py` line 48). -/
def loop_maximum_rounds_default : Nat := 5

/-- `Graph.pre` (`graph.py` lines 139-146): depth-first pre-pass marking
cycle headers.  A block already marked visited that has exactly two outgoing
edges is added to `circles` and not expanded again; otherwise the block is
marked visited and all successors are expanded.  Marks are never cleared.
`fuel` bounds the recursion depth (the Python call stack). -/
def pre (g : Cfg) : Nat → String → VisN → Circ → Option (VisN × Circ)
  | 0, _, _, _ => none
  | fuel + 1, blk, vis, circles =>
    if vis blk = 1 ∧ (g blk).length = 2 then
      some (vis, updC circles blk)
    else
      optFold (fun acc e => pre g fuel e.2 acc.1 acc.2)
        (updN vis blk 1, circles) (g blk)

/-- Modelled from the spec: §4.2 says a block is a cycle header if it is
"re-visited while already marked visited on the current path".  This variant
implements that wording: the mark is removed again when the depth-first
expansion of the block returns, so marks describe the current path only.
It exists solely to be compared with `pre`, which `graph.py` actually
implements (marks are never cleared there). -/
def preSpec (g : Cfg) : Nat → String → VisN → Circ → Option (VisN × Circ)
  | 0, _, _, _ => none
  | fuel + 1, blk, vis, circles =>
    if vis blk = 1 ∧ (g blk).length = 2 then
      some (vis, updC circles blk)
    else
      match optFold (fun acc e => preSpec g fuel e.2 acc.1 acc.2)
          (updN vis blk 1, circles) (g blk) with
      | none => none
      | some (v, c) => some (updN v blk 0, c)

/-- `Graph.pre` instrumented with a trace: each call appends the pair
`(blk, already-marked?)`.  First two components coincide with `pre`
(`preT_eq_pre`); the trace is used to characterise which blocks enter
`circles`. -/
def preT (g : Cfg) :
    Nat → String → VisN → Circ → List (String × Bool) →
    Option (VisN × Circ × List (String × Bool))
  | 0, _, _, _, _ => none
  | fuel + 1, blk, vis, circles, tr =>
    if vis blk = 1 ∧ (g blk).length = 2 then
      some (vis, updC circles blk, tr ++ [(blk, decide (vis blk = 1))])
    else
      optFold (fun acc e => preT g fuel e.2 acc.1 acc.2.1 acc.2.2)
        (updN vis blk 1, circles, tr ++ [(blk, decide (vis blk = 1))]) (g blk)

end Graph

/-- The read-only context of a traversal: the class-level maps of `Graph`
(`func_to_bbs`, `bb_to_instructions`, `bbs_graph`, `_loop_maximum_rounds`,
`manual_guide`) together with the external collaborators — the instruction
emulator `wasmVM.emulate_basic_block`, the state's constraint accessor, the
SMT solver verdict, and the guided-mode operator's two choices (the two
successful outcomes of `ask_user_input`; `none` models a raised exception).
`S` = symbolic state, `C` = constraint formula, `I` = instruction. -/
structure Ctx (S C I : Type) where
  func_to_bbs : String → List String
  bb_to_instructions : String → List I
  bbs_graph : Cfg
  emulate_basic_block : List (SItem S) → Bool → List I → Bool × List (SItem S)
  constraints : S → List C
  check : List C → SolverResult
  loop_maximum_rounds : Nat
  manual_guide : Bool
  chooseState : List (SItem S) → Option Int
  chooseBranch : List EdgeType → Option EdgeType

namespace Graph

variable {S C I : Type}

/-- The branch filter of `Graph.visit` (`graph.py` lines 172-181): an edge
type survives into `avail_br` unless it is `conditional_true` or
`conditional_false`, the state item is a dict, and either the dict has no
entry for it (`continue` at line 175) or the solver verdict on that branch
state's accumulated constraints is not `sat` (`continue` at line 180). -/
def keepBranch (ctx : Ctx S C I) (state_item : SItem S) (ty : EdgeType) : Bool :=
  match state_item with
  | .flat _ => true
  | .branch m =>
    if ty = EdgeType.conditional_true ∨ ty = EdgeType.conditional_false then
      match lookupA m ty with
      | none => false
      | some s => decide (ctx.check (ctx.constraints s) = SolverResult.sat)
    else true

/-- `Graph.visit` (`graph.py` lines 148-205).  Returns the final state list
together with the visit-counter map as left by the call (the Python code
mutates `vis` in place; the embedding threads it).  `none` models a call
that either exceeds `fuel` (Python stack) or raises (`KeyError` on a missing
edge/state entry, `IndexError`/exception inside a guided-mode prompt). -/
def visit (ctx : Ctx S C I) :
    Nat → List (SItem S) → Bool → String → Vis → Circ → Bool →
    Option (List EdgeType) → Option (List (SItem S) × Vis)
  | 0, _, _, _, _, _, _, _ => none
  | fuel + 1, states, has_ret, blk, vis, circles, guided, branches =>
    if guided = false ∧ 0 < vis blk then some (states, vis) else
    match ctx.emulate_basic_block states has_ret (ctx.bb_to_instructions blk) with
    | (halt, emul_states0) =>
      if halt = true ∨ ctx.bbs_graph blk = [] then some (emul_states0, vis) else
      let vis1 := updVis vis blk (vis blk + 1)
      match
        (if guided then
          match ctx.chooseState emul_states0 with
          | none => none
          | some idx =>
            match pyIndex emul_states0 idx with
            | none => none
            | some state_item => some [state_item]
        else some emul_states0) with
      | none => none
      | some emul_states =>
        match
          optFold (fun (acc : List (SItem S) × Vis) state_item =>
            let brs := match branches with
              | none => (ctx.bbs_graph blk).map Prod.fst
              | some bs => bs
            match
              (if guided then
                match ctx.chooseBranch (brs.filter (keepBranch ctx state_item)) with
                | none => none
                | some t => some [t]
              else some (brs.filter (keepBranch ctx state_item))) with
            | none => none
            | some avail_br =>
              optFold (fun (acc2 : List (SItem S) × Vis) ty =>
                match lookupA (ctx.bbs_graph blk) ty with
                | none => none
                | some nxt_blk =>
                  match state_item.select ty with
                  | none => none
                  | some state =>
                    if guided = false then
                      if circles nxt_blk then
                        match
                          optFold (fun (es : List (SItem S) × Vis) _ =>
                              visit ctx fuel es.1 has_ret nxt_blk es.2 circles
                                guided (some [EdgeType.conditional_false]))
                            ([SItem.flat state], acc2.2)
                            (List.range ctx.loop_maximum_rounds) with
                        | none => none
                        | some es1 =>
                          match visit ctx fuel es1.1 has_ret nxt_blk es1.2 circles
                              guided (some [EdgeType.conditional_true]) with
                          | none => none
                          | some es2 => some (acc2.1 ++ es2.1, es2.2)
                      else
                        match visit ctx fuel [SItem.flat state] has_ret nxt_blk
                            acc2.2 circles guided none with
                        | none => none
                        | some r => some (acc2.1 ++ r.1, r.2)
                    else
                      match visit ctx fuel [SItem.flat state] has_ret nxt_blk
                          acc2.2 circles guided none with
                      | none => none
                      | some r => some (acc2.1 ++ r.1, r.2)
                ) acc avail_br) ([], vis1) emul_states with
        | none => none
        | some fsv =>
          some ((if fsv.1.isEmpty then states else fsv.1),
            updVis fsv.2 blk (fsv.2 blk - 1))

/-- The body of the edge loop `for type in avail_br` of `Graph.visit`
(lines 190-203), factored out verbatim for the theorems: resolve the
destination block and the per-edge state (Python `KeyError` = `none`), then
either run the loop-bounded unrolling (destination is a cycle header,
unguided) or recurse plainly. -/
def edgeStep (ctx : Ctx S C I) (fuel : Nat) (has_ret : Bool) (blk : String)
    (circles : Circ) (guided : Bool) (state_item : SItem S)
    (acc2 : List (SItem S) × Vis) (ty : EdgeType) :
    Option (List (SItem S) × Vis) :=
  match lookupA (ctx.bbs_graph blk) ty with
  | none => none
  | some nxt_blk =>
    match state_item.select ty with
    | none => none
    | some state =>
      if guided = false then
        if circles nxt_blk then
          match
            optFold (fun (es : List (SItem S) × Vis) _ =>
                visit ctx fuel es.1 has_ret nxt_blk es.2 circles
                  guided (some [EdgeType.conditional_false]))
              ([SItem.flat state], acc2.2)
              (List.range ctx.loop_maximum_rounds) with
          | none => none
          | some es1 =>
            match visit ctx fuel es1.1 has_ret nxt_blk es1.2 circles
                guided (some [EdgeType.conditional_true]) with
            | none => none
            | some es2 => some (acc2.1 ++ es2.1, es2.2)
        else
          match visit ctx fuel [SItem.flat state] has_ret nxt_blk
              acc2.2 circles guided none with
          | none => none
          | some r => some (acc2.1 ++ r.1, r.2)
      else
        match visit ctx fuel [SItem.flat state] has_ret nxt_blk
            acc2.2 circles guided none with
        | none => none
        | some r => some (acc2.1 ++ r.1, r.2)

/-- The body of the state loop `for state_item in emul_states` of
`Graph.visit` (lines 169-203), factored out verbatim: compute `branches`
and `avail_br`, in guided mode replace `avail_br` by the operator's single
choice, then run the edge loop. -/
def itemStep (ctx : Ctx S C I) (fuel : Nat) (has_ret : Bool) (blk : String)
    (circles : Circ) (guided : Bool) (branches : Option (List EdgeType))
    (acc : List (SItem S) × Vis) (state_item : SItem S) :
    Option (List (SItem S) × Vis) :=
  let brs := match branches with
    | none => (ctx.bbs_graph blk).map Prod.fst
    | some bs => bs
  match
    (if guided then
      match ctx.chooseBranch (brs.filter (keepBranch ctx state_item)) with
      | none => none
      | some t => some [t]
    else some (brs.filter (keepBranch ctx state_item))) with
  | none => none
  | some avail_br =>
    optFold (edgeStep ctx fuel has_ret blk circles guided state_item)
      acc avail_br

/-- The aggregation loop of `Graph.visit` over all emulated state items
(lines 157-203), starting from `final_states = []` and the incremented
visit counter. -/
def visitBody (ctx : Ctx S C I) (fuel : Nat) (has_ret : Bool) (blk : String)
    (vis1 : Vis) (circles : Circ) (guided : Bool)
    (branches : Option (List EdgeType)) (emul_states : List (SItem S)) :
    Option (List (SItem S) × Vis) :=
  optFold (itemStep ctx fuel has_ret blk circles guided branches)
    ([], vis1) emul_states

/-- The loop-bounded unrolling of `Graph.visit` lines 195-198, as the code
writes it: a `for i in range(loop_maximum_rounds)` loop of
`conditional_false`-restricted visits followed by one
`conditional_true`-restricted visit. -/
def circleUnroll (ctx : Ctx S C I) (fuel : Nat) (state : S) (has_ret : Bool)
    (nxt_blk : String) (vis : Vis) (circles : Circ) :
    Option (List (SItem S) × Vis) :=
  match
    optFold (fun (es : List (SItem S) × Vis) _ =>
        visit ctx fuel es.1 has_ret nxt_blk es.2 circles
          false (some [EdgeType.conditional_false]))
      ([SItem.flat state], vis)
      (List.range ctx.loop_maximum_rounds) with
  | none => none
  | some es1 =>
    visit ctx fuel es1.1 has_ret nxt_blk es1.2 circles
      false (some [EdgeType.conditional_true])

/-- `n`-fold iteration of a fallible step, threading the output back in. -/
def iterOpt {σ : Type} (h : σ → Option σ) : Nat → σ → Option σ
  | 0, es => some es
  | k + 1, es =>
    match h es with
    | none => none
    | some es2 => iterOpt h k es2

/-- The spec's wording of loop-bounded unrolling (§4.3 step g): recurse into
the `conditional_false` branch exactly `loop_maximum_rounds` times, each
iteration feeding the prior iteration's output states back in, then one
final recursion along `conditional_true`. -/
def unrollSpec (ctx : Ctx S C I) (fuel : Nat) (state : S) (has_ret : Bool)
    (nxt_blk : String) (vis : Vis) (circles : Circ) :
    Option (List (SItem S) × Vis) :=
  match
    iterOpt (fun (es : List (SItem S) × Vis) =>
        visit ctx fuel es.1 has_ret nxt_blk es.2 circles
          false (some [EdgeType.conditional_false]))
      ctx.loop_maximum_rounds ([SItem.flat state], vis) with
  | none => none
  | some es1 =>
    visit ctx fuel es1.1 has_ret nxt_blk es1.2 circles
      false (some [EdgeType.conditional_true])

/-- Entry-block selection of `Graph.traverse_one` (`graph.py` line 128):
`list(filter(lambda bb: bb[-2:] == '_0', entry_func_bbs))[0]`; `none` is the
`IndexError` raised when no block name ends in `_0`. -/
def entry_bb_of (bbs : List String) : Option String :=
  (bbs.filter (fun bb => bb.takeRight 2 = "_0")).head?

/-- `Graph.traverse_one` (`graph.py` lines 115-137), restricted to the
exploration plumbing (lines 126-134): locate the entry block, run the cycle
pre-pass on fresh marks and a fresh `circles` set, then run `visit` on a
fresh visit-counter map.  State initialisation (`wasmVM.init_state`) is
abstracted by passing `state`/`has_ret` directly, and the in-place
save/restore of `state.current_func_name` (lines 120-123, 135-136) is a
mutation of the opaque state object, not of the traversal structures
modelled here. -/
def traverse_one (ctx : Ctx S C I) (preFuel fuel : Nat) (func : String)
    (state : S) (has_ret : Bool) : Option (List (SItem S)) :=
  match entry_bb_of (ctx.func_to_bbs func) with
  | none => none
  | some entry_bb =>
    match pre ctx.bbs_graph preFuel entry_bb (fun _ => 0) (fun _ => false) with
    | none => none
    | some r =>
      match visit ctx fuel [SItem.flat state] has_ret entry_bb (fun _ => 0)
          r.2 ctx.manual_guide none with
      | none => none
      | some rr => some rr.1

/-- `Graph.traverse` (`graph.py` lines 111-113): each entry function gets its
own `traverse_one` run; `init_state` abstracts `wasmVM.init_state`. -/
def traverse (ctx : Ctx S C I) (preFuel fuel : Nat) (entries : List String)
    (init_state : String → S × Bool) : List (String × Option (List (SItem S))) :=
  entries.map (fun func =>
    (func, traverse_one ctx preFuel fuel func (init_state func).1 (init_state func).2))

/-- Outcome of the interactive prompt loop `Graph.ask_user_input`:
a successful choice (state index or branch), a raised exception, or an
exhausted input stream (the operator is still being prompted). -/
inductive AskResult where
  | chosen (v : Int ⊕ EdgeType)
  | raised (msg : String)
  | awaiting
deriving DecidableEq

/-- `branch_mapping` of `Graph.ask_user_input` (`graph.py` lines 240-245). -/
def branch_mapping : List (String × EdgeType) :=
  [("T", EdgeType.conditional_true), ("F", EdgeType.conditional_false),
   ("f", EdgeType.fallthrough), ("u", EdgeType.unconditional)]

/-- In Python 3, `raise("...")` with a plain string raises
`TypeError: exceptions must derive from BaseException`; this is what the
`except` arm at `graph.py` lines 266-267 actually does. -/
def pyRaiseMsg : String := "TypeError: exceptions must derive from BaseException"

/-- `str.split(' ')` on the character list: split at every single space,
keeping empty fields, as Python does with an explicit separator. -/
def splitSp : List Char → List (List Char)
  | [] => [[]]
  | c :: r =>
    match splitSp r with
    | [] => if c = ' ' then [[], []] else [[c]]
    | h :: t => if c = ' ' then [] :: h :: t else (c :: h) :: t

/-- The digit-string value, `none` unless the list is a nonempty run of
decimal digits. -/
def digitsToNat : List Char → Option Nat
  | [] => none
  | [c] => if c.isDigit then some (c.toNat - 48) else none
  | c :: r =>
    if c.isDigit then
      match digitsToNat r with
      | none => none
      | some n => some ((c.toNat - 48) * 10 ^ r.length + n)
    else none

/-- Python `int(s)` restricted to optionally-signed decimal literals
(`none` = `ValueError`); the `graph.py` prompt only ever feeds it the first
whitespace-free token of an input line. -/
def pyToInt (s : String) : Option Int :=
  match s.data with
  | '-' :: ds => (digitsToNat ds).map (fun n => -(n : Int))
  | ds => (digitsToNat ds).map (fun n => (n : Int))

/-- `Graph.ask_user_input` (`graph.py` lines 235-268) over a stream of
operator inputs (each list element is one `input()` result).  Faithful
points: the two-token form is unpacked and asserted to end in `i`; the
branch lookup at line 258 uses the FULL input string `user_input`, not the
first token; any exception inside the `try` reaches the `except` arm, whose
`raise("[!] Valid input is needed")` raises a `TypeError` out of the loop
instead of re-prompting; only a well-formed info request (`"<k> i"` with a
valid state index, state mode) loops back for more input.  `numStates` is
`len(emul_states)`, used for the `IndexError` bound of `show_state_info`
(Python indexing admits negative indices down to `-numStates`). -/
def ask_user_input (isbr : Bool) (numStates : Nat) : List String → AskResult
  | [] => .awaiting
  | user_input :: rest =>
    if user_input.data.any (fun c => c = ' ') then
      match (splitSp user_input.data).map List.asString with
      | [cv, afi] =>
        if afi = "i" then
          if isbr then
            match lookupA branch_mapping user_input with
            | none => .raised pyRaiseMsg
            | some _br =>
              -- dead for this mapping (no key contains a space); were it
              -- reached, `show_branch_info` indexes the list `branches`
              -- with a string, a `TypeError` caught by the same arm
              .raised pyRaiseMsg
          else
            match pyToInt cv with
            | none => .raised pyRaiseMsg
            | some n =>
              if -(numStates : Int) ≤ n - 1 ∧ n - 1 < (numStates : Int) then
                ask_user_input isbr numStates rest
              else .raised pyRaiseMsg
        else .raised pyRaiseMsg
      | _ => .raised pyRaiseMsg
    else
      if isbr then
        match lookupA branch_mapping user_input with
        | none => .raised pyRaiseMsg
        | some br => .chosen (Sum.inr br)
      else
        match pyToInt user_input with
        | none => .raised pyRaiseMsg
        | some n => .chosen (Sum.inl (n - 1))

/-- Concrete instantiation used by the witnesses and counterexamples: the
symbolic state is the list of instruction strings executed so far (so the
final states record exactly which blocks the emulator was run on, in
order), each block's instruction list is `[blockName]`, and a block in
`branching` makes the emulator fork into a `conditional_true` state (suffix
`"t"`) and a `conditional_false` state (suffix `"f"`), the per-edge dict
shape of `emulate_basic_block`.  The constraint list of a state is the
state itself, so `check` can inspect the path. -/
def mkRecCtx (g : Cfg) (branching : String → Bool)
    (chk : List String → SolverResult) (rounds : Nat) :
    Ctx (List String) String String where
  func_to_bbs := fun _ => []
  bb_to_instructions := fun b => [b]
  bbs_graph := g
  emulate_basic_block := fun states _ instrs =>
    (false, states.map (fun it =>
      match it, instrs with
      | .flat s, [b] =>
        if branching b then
          .branch [(EdgeType.conditional_true, s ++ [b, "t"]),
                   (EdgeType.conditional_false, s ++ [b, "f"])]
        else .flat (s ++ [b])
      | it2, _ => it2))
  constraints := fun s => s
  check := chk
  loop_maximum_rounds := rounds
  manual_guide := false
  chooseState := fun _ => none
  chooseBranch := fun _ => none

/-- CFG for claim C1: a conditional block `A` with a true edge to `T` and a
false edge to `F`, both terminal. -/
def gBranch : Cfg := fun b =>
  if b = "A" then
    [(EdgeType.conditional_true, "T"), (EdgeType.conditional_false, "F")]
  else []

/-- Context for C1: the solver answers `unknown` on the true branch (its
constraint list contains the marker `"t"`) and `sat` elsewhere. -/
def ctxC1 : Ctx (List String) String String :=
  mkRecCtx gBranch (fun b => b = "A")
    (fun l => if l.contains "t" then SolverResult.unknown else SolverResult.sat) 5

/-- Diamond CFG for claim C2: `A` branches to `B` and `C`, which both fall
into the join block `D`; `D` is terminal.  No cycles. -/
def gDiamond : Cfg := fun b =>
  if b = "A" then
    [(EdgeType.conditional_true, "B"), (EdgeType.conditional_false, "C")]
  else if b = "B" then [(EdgeType.unconditional, "D")]
  else if b = "C" then [(EdgeType.unconditional, "D")]
  else []

/-- Context for C2: every branch is satisfiable, so both diamond paths are
explored. -/
def ctxC2 : Ctx (List String) String String :=
  mkRecCtx gDiamond (fun b => b = "A") (fun _ => SolverResult.sat) 5

/-- Looping CFG for claim C3: entry `E` falls through into the loop header
`H`, whose true edge exits to `X` and whose false edge enters the body `B`,
which jumps back to `H`.  `Graph.pre` classifies `H` as a cycle header. -/
def gLoop : Cfg := fun b =>
  if b = "E" then [(EdgeType.fallthrough, "H")]
  else if b = "H" then
    [(EdgeType.conditional_true, "X"), (EdgeType.conditional_false, "B")]
  else if b = "B" then [(EdgeType.unconditional, "H")]
  else []

/-- Context for C3 with the default loop bound 5. -/
def ctxC3 : Ctx (List String) String String :=
  mkRecCtx gLoop (fun b => b = "H") (fun _ => SolverResult.sat)
    loop_maximum_rounds_default

/-- Diamond CFG whose join block `D` itself has two outgoing edges, for
claim C4: `D` is revisited by the pre-pass on a second, disjoint acyclic
path and — having exactly two outgoing edges — is classified as a cycle
header by `pre` although the graph has no cycle at all. -/
def gDiamond2 : Cfg := fun b =>
  if b = "A" then
    [(EdgeType.conditional_true, "B"), (EdgeType.conditional_false, "C")]
  else if b = "B" then [(EdgeType.unconditional, "D")]
  else if b = "C" then [(EdgeType.unconditional, "D")]
  else if b = "D" then
    [(EdgeType.conditional_true, "E"), (EdgeType.conditional_false, "F")]
  else []

/-- Context for C5, the spec's own pruning example: the solver proves the
true branch unsatisfiable and the rest satisfiable. -/
def ctxC5 : Ctx (List String) String String :=
  mkRecCtx gBranch (fun b => b = "A")
    (fun l => if l.contains "t" then SolverResult.unsat else SolverResult.sat) 5

/-- Context for C6's counterexample: the emulator signals `halt` on every
block and still transforms the states (appends the block name). -/
def ctxC6 : Ctx (List String) String String where
  func_to_bbs := fun _ => []
  bb_to_instructions := fun b => [b]
  bbs_graph := fun _ => [(EdgeType.unconditional, "Z")]
  emulate_basic_block := fun states _ instrs =>
    (true, states.map (fun it =>
      match it, instrs with
      | .flat s, [b] => .flat (s ++ [b])
      | it2, _ => it2))
  constraints := fun s => s
  check := fun _ => SolverResult.sat
  loop_maximum_rounds := 5
  manual_guide := false
  chooseState := fun _ => none
  chooseBranch := fun _ => none

/-- CFG for C10's counterexample: the start block `a` is terminal and a
disconnected block `s` forms a one-edge self-loop, a cycle none of whose
blocks has two outgoing edges.  `pre` started at `a` never reaches `s`. -/
def gDetached : Cfg := fun b =>
  if b = "s" then [(EdgeType.unconditional, "s")] else []

/-- CFG for C10's positive witness: loop header `H` (two outgoing edges)
with a conditional self-loop; every cycle passes through `H`. -/
def gSelfLoop : Cfg := fun b =>
  if b = "H" then
    [(EdgeType.conditional_true, "X"), (EdgeType.conditional_false, "H")]
  else []

/-- CFG for C10's negative witness: `start` steps into the one-edge
self-loop `s`, so the undetectable cycle is reachable. -/
def gReachLoop : Cfg := fun b =>
  if b = "start" then [(EdgeType.unconditional, "s")]
  else if b = "s" then [(EdgeType.unconditional, "s")]
  else []

/-- Boolean edge test: some edge of `g` leads from `a` to `b`. -/
def isEdge (g : Cfg) (a b : String) : Bool :=
  (g a).any (fun e => e.2 = b)

/-- `w` is a walk in `g`: consecutive elements are joined by edges. -/
def isWalk (g : Cfg) : List String → Bool
  | [] => true
  | [_] => true
  | a :: b :: l => isEdge g a b && isWalk g (b :: l)

/-- Context for C8's witness: both branch verdicts are `unsat`, so every
edge of the conditional block `A` is pruned and the recursion aggregate is
empty. -/
def ctxC8 : Ctx (List String) String String :=
  mkRecCtx gBranch (fun b => b = "A") (fun _ => SolverResult.unsat) 5

/-- The number of blocks of `u` not marked visited by `v`. -/
def cntUnvis (u : List String) (v : VisN) : Nat :=
  (u.filter (fun x => decide (v x ≠ 1))).length

/-!  ## Theorems  -/

/-- Unfolding of `visit` at positive fuel in terms of the factored loop
bodies; `rfl` certifies that `edgeStep`/`itemStep`/`visitBody` are verbatim
the loops of `visit`. -/
theorem visit_succ (ctx : Ctx S C I) (fuel : Nat) (states : List (SItem S))
    (has_ret : Bool) (blk : String) (vis : Vis) (circles : Circ)
    (guided : Bool) (branches : Option (List EdgeType)) :
    visit ctx (fuel + 1) states has_ret blk vis circles guided branches =
      (if guided = false ∧ 0 < vis blk then some (states, vis) else
        match ctx.emulate_basic_block states has_ret (ctx.bb_to_instructions blk) with
        | (halt, emul_states0) =>
          if halt = true ∨ ctx.bbs_graph blk = [] then some (emul_states0, vis) else
          match
            (if guided then
              match ctx.chooseState emul_states0 with
              | none => none
              | some idx =>
                match pyIndex emul_states0 idx with
                | none => none
                | some state_item => some [state_item]
            else some emul_states0) with
          | none => none
          | some emul_states =>
            match visitBody ctx fuel has_ret blk (updVis vis blk (vis blk + 1))
                circles guided branches emul_states with
            | none => none
            | some fsv =>
              some ((if fsv.1.isEmpty then states else fsv.1),
                updVis fsv.2 blk (fsv.2 blk - 1))) := rfl

/-- C1 counterexample.  The claim says a solver verdict of `unknown` is
treated the same as `sat` and the edge is not pruned.  Concretely: in
`ctxC1` the solver answers `unknown` exactly on the `conditional_true`
branch of block `A`, yet the traversal's final states are only those of the
`conditional_false` path (no final state records block `T`), i.e. the
`unknown` edge was pruned. -/
theorem c1_counterexample :
    ctxC1.check (ctxC1.constraints ["A", "t"]) = SolverResult.unknown ∧
    (visit ctxC1 10 [SItem.flat []] false "A" (fun _ => 0) (fun _ => false)
        false none).map (fun r => r.1) =
      some [SItem.flat ["A", "f", "F"]] :=
  ⟨by decide, by decide⟩

/-- C1 (amended): for every branch-feasibility query issued by `visit` on a
`conditional_true` or `conditional_false` edge, any solver verdict other
than `sat` — `unsat` and `unknown` alike (z3 reports timeouts as the
`unknown` verdict) — prunes the edge; only a definite `sat` verdict keeps
it.  Stated on `keepBranch`, the verbatim branch filter of `visit`. -/
theorem c1_nonsat_verdict_prunes {S C I : Type} (ctx : Ctx S C I)
    (m : List (EdgeType × S)) (ty : EdgeType) (s : S)
    (hty : ty = EdgeType.conditional_true ∨ ty = EdgeType.conditional_false)
    (hs : lookupA m ty = some s)
    (hns : ctx.check (ctx.constraints s) ≠ SolverResult.sat) :
    keepBranch ctx (SItem.branch m) ty = false := by
  simp only [keepBranch, if_pos hty, hs]
  simp [hns]

/-- Witness for `c1_nonsat_verdict_prunes` at `ctxC1`. -/
theorem c1_witness :
    lookupA [(EdgeType.conditional_true, ["A", "t"]),
      (EdgeType.conditional_false, ["A", "f"])] EdgeType.conditional_true =
        some ["A", "t"] ∧
    ctxC1.check (ctxC1.constraints ["A", "t"]) ≠ SolverResult.sat ∧
    keepBranch ctxC1
      (SItem.branch [(EdgeType.conditional_true, ["A", "t"]),
        (EdgeType.conditional_false, ["A", "f"])])
      EdgeType.conditional_true = false :=
  ⟨by decide, by decide,
    c1_nonsat_verdict_prunes ctxC1
      [(EdgeType.conditional_true, ["A", "t"]),
        (EdgeType.conditional_false, ["A", "f"])]
      EdgeType.conditional_true ["A", "t"]
      (Or.inl rfl) (by decide) (by decide)⟩

/-- C2 counterexample.  The claim says the join block of a diamond CFG,
reached a second time via a disjoint non-cyclic path, is not re-executed
and the second visit returns its input states unchanged.  Concretely: in
the diamond `gDiamond` the final state of the second path records `"D"` —
the emulator ran on the join block's instructions again (under the claim it
would read `["A", "f", "C"]`). -/
theorem c2_counterexample :
    (visit ctxC2 10 [SItem.flat []] false "A" (fun _ => 0) (fun _ => false)
        false none).map (fun r => r.1) =
      some [SItem.flat ["A", "t", "B", "D"], SItem.flat ["A", "f", "C", "D"]] := by
  decide

/-- C2 (amended): in unguided mode the re-entrance guard suppresses
re-execution only while a visit to the block is still on the current
recursion stack (`vis blk > 0`): such a call returns its input states (and
the counters) unchanged, without running the emulator.  Since the counter
is decremented when a visit returns, a block reached twice via two disjoint
non-cyclic paths is re-executed on the second visit (see
`c2_counterexample`). -/
theorem c2_guard_requires_active_visit {S C I : Type} (ctx : Ctx S C I)
    (fuel : Nat) (states : List (SItem S)) (has_ret : Bool) (blk : String)
    (vis : Vis) (circles : Circ) (branches : Option (List EdgeType))
    (h : 0 < vis blk) :
    visit ctx (fuel + 1) states has_ret blk vis circles false branches =
      some (states, vis) := by
  rw [visit_succ]
  simp [h]

/-- Witness for `c2_guard_requires_active_visit`. -/
theorem c2_witness :
    (0 : Int) < 1 ∧
    visit ctxC2 3 [SItem.flat []] false "A" (fun _ => (1 : Int))
        (fun _ => false) false none =
      some ([SItem.flat []], fun _ => (1 : Int)) :=
  ⟨by decide,
    c2_guard_requires_active_visit ctxC2 2 [SItem.flat []] false "A"
      (fun _ => (1 : Int)) (fun _ => false) none (by decide)⟩

/-- C5: in unguided mode, for every live per-branch (dict) state and
structurally available edge type: a `conditional_true`/`conditional_false`
edge survives the filter if and only if the solver verdict on exactly that
branch state's accumulated constraint list is `sat` (so a proven-`unsat`
branch is never taken), and an edge type that is neither `conditional_true`
nor `conditional_false` always survives, with no solver query possible (its
filter value is `true` for every context, hence independent of `check`).
Last conjunct: the spec's own example — with `conditional_true`
unsatisfiable, `visit` never reaches block `T`: the final states are only
those of the false path. -/
theorem c5_branch_feasibility_filter :
    (∀ (S C I : Type) (ctx : Ctx S C I) (m : List (EdgeType × S))
        (ty : EdgeType) (s : S),
      (ty = EdgeType.conditional_true ∨ ty = EdgeType.conditional_false) →
      lookupA m ty = some s →
      (keepBranch ctx (SItem.branch m) ty = true ↔
        ctx.check (ctx.constraints s) = SolverResult.sat)) ∧
    (∀ (S C I : Type) (ctx : Ctx S C I) (item : SItem S) (ty : EdgeType),
      ¬ (ty = EdgeType.conditional_true ∨ ty = EdgeType.conditional_false) →
      keepBranch ctx item ty = true) ∧
    (visit ctxC5 10 [SItem.flat []] false "A" (fun _ => 0) (fun _ => false)
        false none).map (fun r => r.1) =
      some [SItem.flat ["A", "f", "F"]] := by
  refine ⟨?_, ?_, by decide⟩
  · intro S C I ctx m ty s hty hs
    simp only [keepBranch, if_pos hty, hs]
    simp
  · intro S C I ctx item ty hty
    cases item with
    | flat s => simp [keepBranch]
    | branch m => simp only [keepBranch, if_neg hty]

/-- Witness for `c5_branch_feasibility_filter` at `ctxC5`. -/
theorem c5_witness :
    (keepBranch ctxC5
        (SItem.branch [(EdgeType.conditional_true, ["A", "t"]),
          (EdgeType.conditional_false, ["A", "f"])])
        EdgeType.conditional_true = true ↔
      ctxC5.check (ctxC5.constraints ["A", "t"]) = SolverResult.sat) ∧
    keepBranch ctxC5 (SItem.branch [(EdgeType.conditional_true, ["A", "t"])])
      EdgeType.fallthrough = true :=
  ⟨c5_branch_feasibility_filter.1 _ _ _ ctxC5 _ _ _ (Or.inl rfl) (by decide),
    c5_branch_feasibility_filter.2.1 _ _ _ ctxC5 _ _ (by decide)⟩

/-- C6 counterexample.  The claim quantifies over every call to `visit`,
but the straight-line re-entrance guard (line 150) runs before the
emulator: an unguided call with a positive visit counter returns its input
states even though the emulator would report `halt` for this block and
would transform the states.  Concretely, under `ctxC6` (emulator always
halts and appends the block name) a call with `vis "A" = 1` returns the
untouched input `[SItem.flat []]`, not the emulator output
`[SItem.flat ["A"]]`. -/
theorem c6_counterexample :
    (visit ctxC6 3 [SItem.flat []] false "A" (fun _ => (1 : Int))
        (fun _ => false) false none).map (fun r => r.1) =
      some [SItem.flat []] ∧
    (ctxC6.emulate_basic_block [SItem.flat []] false
        (ctxC6.bb_to_instructions "A")).1 = true ∧
    (ctxC6.emulate_basic_block [SItem.flat []] false
        (ctxC6.bb_to_instructions "A")).2 ≠ [SItem.flat []] :=
  ⟨by decide, by decide, by decide⟩

/-- C6 (amended): for every call to `visit` that passes the re-entrance
guard (guided, or visit counter not positive), if the emulator reports a
halt signal for the block or the block has zero outgoing edges, `visit`
returns the emulator's output states immediately as terminal — the visit
counter map is returned exactly as it came in (no increment), and no
outgoing edge is consulted and no recursion happens (the call is decided
by the emulator's output alone). -/
theorem c6_halt_or_terminal_short_circuit {S C I : Type} (ctx : Ctx S C I)
    (fuel : Nat) (states : List (SItem S)) (has_ret : Bool) (blk : String)
    (vis : Vis) (circles : Circ) (guided : Bool)
    (branches : Option (List EdgeType)) (halt : Bool) (es : List (SItem S))
    (hguard : ¬ (guided = false ∧ 0 < vis blk))
    (hemu : ctx.emulate_basic_block states has_ret (ctx.bb_to_instructions blk) =
      (halt, es))
    (hterm : halt = true ∨ ctx.bbs_graph blk = []) :
    visit ctx (fuel + 1) states has_ret blk vis circles guided branches =
      some (es, vis) := by
  rw [visit_succ, if_neg hguard, hemu]
  simp only [if_pos hterm]

/-- Witness for `c6_halt_or_terminal_short_circuit` at `ctxC6`. -/
theorem c6_witness :
    ¬ (false = false ∧ (0 : Int) < 0) ∧
    ctxC6.emulate_basic_block [SItem.flat []] false
        (ctxC6.bb_to_instructions "A") = (true, [SItem.flat ["A"]]) ∧
    visit ctxC6 3 [SItem.flat []] false "A" (fun _ => (0 : Int))
        (fun _ => false) false none =
      some ([SItem.flat ["A"]], fun _ => (0 : Int)) :=
  ⟨by decide, by decide,
    c6_halt_or_terminal_short_circuit ctxC6 2 [SItem.flat []] false "A"
      (fun _ => (0 : Int)) (fun _ => false) false none true [SItem.flat ["A"]]
      (by decide) (by decide) (Or.inl rfl)⟩

/-- C9: the claim says malformed interactive input re-prompts without
raising past the prompt loop.  The code's `except` arm executes
`raise("[!] Valid input is needed")`, which in Python 3 raises a
`TypeError` out of the `while True` loop — the traversal dies.  First two
conjuncts: a malformed token (`"x"`) raises in state mode and in branch
mode without consuming further input.  Third conjunct: the loop itself is
reachable — a well-formed info request (`"1 i"`) does re-prompt and then
accepts `"2"`.  The `while True:` structure and the message text show
re-prompting was the intent, so the claim is right and the code is a slip
(`raise` instead of `print`/`continue`). -/
theorem c9_malformed_input_raises :
    ask_user_input false 2 ["x", "1"] = AskResult.raised pyRaiseMsg ∧
    ask_user_input true 2 ["x", "T"] = AskResult.raised pyRaiseMsg ∧
    ask_user_input false 2 ["1 i", "2"] = AskResult.chosen (Sum.inl 1) :=
  ⟨by decide, by decide, by decide⟩

/-- If every step of `optFold` preserves the second component of the
accumulator, so does the whole fold. -/
theorem optFold_snd_eq {α β γ : Type} (f : β × γ → α → Option (β × γ))
    (hstep : ∀ acc x r, f acc x = some r → r.2 = acc.2) :
    ∀ (l : List α) (acc r), optFold f acc l = some r → r.2 = acc.2 := by
  intro l
  induction l with
  | nil =>
    intro acc r hr
    simp only [optFold] at hr
    cases hr
    rfl
  | cons x xs ih =>
    intro acc r hr
    simp only [optFold] at hr
    cases hf : f acc x with
    | none => rw [hf] at hr; cases hr
    | some acc2 =>
      rw [hf] at hr
      exact (ih acc2 r hr).trans (hstep acc x acc2 hf)

/-- Every completed call of `visit` leaves the visit-counter map exactly as
it found it: each increment (line 156) is matched by the decrement
(line 204), and all early returns happen before the increment. -/
theorem visit_preserves_vis {S C I : Type} (ctx : Ctx S C I) :
    ∀ (fuel : Nat) (states : List (SItem S)) (has_ret : Bool) (blk : String)
      (vis : Vis) (circles : Circ) (guided : Bool)
      (branches : Option (List EdgeType)) (out : List (SItem S) × Vis),
      visit ctx fuel states has_ret blk vis circles guided branches = some out →
      out.2 = vis := by
  intro fuel
  induction fuel with
  | zero =>
    intro _ _ _ _ _ _ _ out h
    exact absurd h (by simp [visit])
  | succ fuel ih =>
    intro states has_ret blk vis circles guided branches out h
    have hedge : ∀ state_item (acc2 : List (SItem S) × Vis) ty r,
        edgeStep ctx fuel has_ret blk circles guided state_item acc2 ty = some r →
        r.2 = acc2.2 := by
      intro state_item acc2 ty r hr
      unfold edgeStep at hr
      cases hlk : lookupA (ctx.bbs_graph blk) ty with
      | none => rw [hlk] at hr; cases hr
      | some nxt_blk =>
        rw [hlk] at hr
        cases hst : state_item.select ty with
        | none => rw [hst] at hr; cases hr
        | some state =>
          rw [hst] at hr
          dsimp only at hr
          by_cases hgu : guided = false
          · rw [if_pos hgu] at hr
            cases hcir : circles nxt_blk with
            | true =>
              rw [hcir, if_pos rfl] at hr
              cases hfold : optFold (fun (es : List (SItem S) × Vis) _ =>
                  visit ctx fuel es.1 has_ret nxt_blk es.2 circles
                    guided (some [EdgeType.conditional_false]))
                  ([SItem.flat state], acc2.2)
                  (List.range ctx.loop_maximum_rounds) with
              | none => rw [hfold] at hr; cases hr
              | some es1 =>
                rw [hfold] at hr
                dsimp only at hr
                cases hvisit : visit ctx fuel es1.1 has_ret nxt_blk es1.2 circles
                    guided (some [EdgeType.conditional_true]) with
                | none => rw [hvisit] at hr; cases hr
                | some es2 =>
                  rw [hvisit] at hr
                  dsimp only at hr
                  cases hr
                  have h1 : es1.2 = ([SItem.flat state], acc2.2).2 :=
                    optFold_snd_eq _
                      (fun a x rr hx => ih _ _ _ a.2 _ _ _ rr hx) _ _ _ hfold
                  have h2 := ih _ _ _ es1.2 _ _ _ es2 hvisit
                  show es2.2 = acc2.2
                  rw [h2, h1]
            | false =>
              rw [hcir] at hr
              simp only [Bool.false_eq_true, if_false] at hr
              cases hvisit : visit ctx fuel [SItem.flat state] has_ret nxt_blk
                  acc2.2 circles guided none with
              | none => rw [hvisit] at hr; cases hr
              | some rr =>
                rw [hvisit] at hr
                cases hr
                have h2 := ih _ _ _ acc2.2 _ _ _ rr hvisit
                exact h2
          · rw [if_neg hgu] at hr
            cases hvisit : visit ctx fuel [SItem.flat state] has_ret nxt_blk
                acc2.2 circles guided none with
            | none => rw [hvisit] at hr; cases hr
            | some rr =>
              rw [hvisit] at hr
              cases hr
              have h2 := ih _ _ _ acc2.2 _ _ _ rr hvisit
              exact h2
    have hitem : ∀ (acc : List (SItem S) × Vis) item r,
        itemStep ctx fuel has_ret blk circles guided branches acc item = some r →
        r.2 = acc.2 := by
      intro acc item r hr
      simp only [itemStep] at hr
      split at hr
      · cases hr
      · exact optFold_snd_eq _ (hedge item) _ acc r hr
    rw [visit_succ] at h
    split at h
    · cases h; rfl
    · split at h
      rename_i halt es0
      split at h
      · cases h; rfl
      · split at h
        · cases h
        · rename_i emul_states hsel
          split at h
          · cases h
          · rename_i fsv hbody
            cases h
            have h2 : fsv.2 = updVis vis blk (vis blk + 1) :=
              optFold_snd_eq _ hitem emul_states _ fsv hbody
            show updVis fsv.2 blk (fsv.2 blk - 1) = vis
            rw [h2]
            funext x
            by_cases hx : x = blk
            · subst hx; simp [updVis]
            · simp [updVis, hx]

/-- C7: every call to `visit` leaves the visit-counter map with exactly the
values it held on entry (each increment is matched by the decrement before
returning; early returns occur before the increment), and `traverse_one`
constructs fresh visit counters (`defaultdict(int)` twice, lines 129 and
132) and a fresh cycle-header set (line 130) for every entry-function
traversal, so neither persists across traversals. -/
theorem c7_visit_counter_balance :
    (∀ (S C I : Type) (ctx : Ctx S C I) (fuel : Nat) (states : List (SItem S))
        (has_ret : Bool) (blk : String) (vis : Vis) (circles : Circ)
        (guided : Bool) (branches : Option (List EdgeType))
        (out : List (SItem S) × Vis),
      visit ctx fuel states has_ret blk vis circles guided branches = some out →
      out.2 = vis) ∧
    (∀ (S C I : Type) (ctx : Ctx S C I) (preFuel fuel : Nat) (func : String)
        (state : S) (has_ret : Bool),
      traverse_one ctx preFuel fuel func state has_ret =
        match entry_bb_of (ctx.func_to_bbs func) with
        | none => none
        | some entry_bb =>
          match pre ctx.bbs_graph preFuel entry_bb (fun _ => 0) (fun _ => false) with
          | none => none
          | some r =>
            match visit ctx fuel [SItem.flat state] has_ret entry_bb
                (fun _ => 0) r.2 ctx.manual_guide none with
            | none => none
            | some rr => some rr.1) :=
  ⟨fun _ _ _ ctx => visit_preserves_vis ctx, fun _ _ _ _ _ _ _ _ _ => rfl⟩

/-- Witness for `c7_visit_counter_balance` on the diamond traversal. -/
theorem c7_witness :
    ∃ out, visit ctxC2 10 [SItem.flat []] false "A" (fun _ => (0 : Int))
        (fun _ => false) false none = some out ∧ out.2 = (fun _ => (0 : Int)) := by
  cases hv : visit ctxC2 10 [SItem.flat []] false "A" (fun _ => (0 : Int))
      (fun _ => false) false none with
  | none =>
    have hs : (visit ctxC2 10 [SItem.flat []] false "A" (fun _ => (0 : Int))
        (fun _ => false) false none).isSome = true := by decide
    rw [hv] at hs
    cases hs
  | some out =>
    exact ⟨out, rfl,
      c7_visit_counter_balance.1 _ _ _ ctxC2 10 [SItem.flat []] false "A"
        (fun _ => (0 : Int)) (fun _ => false) false none out hv⟩

/-- C8: a call of `visit` that passes the re-entrance guard and the
halt/terminal check, and whose aggregation loop over all emulated state
items contributes no state (`final_states == []`), returns its original
input states (line 205), with the counter for `blk` decremented back. -/
theorem c8_empty_aggregate_returns_inputs {S C I : Type} (ctx : Ctx S C I)
    (fuel : Nat) (states : List (SItem S)) (has_ret : Bool) (blk : String)
    (vis : Vis) (circles : Circ) (guided : Bool)
    (branches : Option (List EdgeType)) (halt : Bool)
    (es0 emul_states : List (SItem S)) (v2 : Vis)
    (hguard : ¬ (guided = false ∧ 0 < vis blk))
    (hemu : ctx.emulate_basic_block states has_ret (ctx.bb_to_instructions blk) =
      (halt, es0))
    (hterm : ¬ (halt = true ∨ ctx.bbs_graph blk = []))
    (hsel : (if guided then
        match ctx.chooseState es0 with
        | none => none
        | some idx =>
          match pyIndex es0 idx with
          | none => none
          | some state_item => some [state_item]
      else some es0) = some emul_states)
    (hbody : visitBody ctx fuel has_ret blk (updVis vis blk (vis blk + 1))
        circles guided branches emul_states = some ([], v2)) :
    visit ctx (fuel + 1) states has_ret blk vis circles guided branches =
      some (states, updVis v2 blk (v2 blk - 1)) := by
  rw [visit_succ, if_neg hguard, hemu]
  dsimp only
  rw [if_neg hterm, hsel]
  dsimp only
  rw [hbody]
  rfl

/-- Witness for `c8_empty_aggregate_returns_inputs`: under `ctxC8` both
branches of `A` are unsatisfiable, the aggregate is empty, and the original
input states come back. -/
theorem c8_witness :
    visit ctxC8 10 [SItem.flat []] false "A" (fun _ => (0 : Int))
        (fun _ => false) false none =
      some ([SItem.flat []],
        updVis (updVis (fun _ => (0 : Int)) "A" ((fun _ => (0 : Int)) "A" + 1))
          "A"
          ((updVis (fun _ => (0 : Int)) "A" ((fun _ => (0 : Int)) "A" + 1)) "A" - 1)) :=
  c8_empty_aggregate_returns_inputs ctxC8 9 [SItem.flat []] false "A"
    (fun _ => (0 : Int)) (fun _ => false) false none false
    [SItem.branch [(EdgeType.conditional_true, ["A", "t"]),
      (EdgeType.conditional_false, ["A", "f"])]]
    [SItem.branch [(EdgeType.conditional_true, ["A", "t"]),
      (EdgeType.conditional_false, ["A", "f"])]]
    (updVis (fun _ => (0 : Int)) "A" ((fun _ => (0 : Int)) "A" + 1))
    (by decide) (by decide) (by decide) rfl rfl

/-- An `optFold` whose step ignores the list elements is the
`length`-fold iteration of the step. -/
theorem optFold_const {α σ : Type} (h : σ → Option σ) :
    ∀ (l : List α) (acc : σ),
      optFold (fun a _ => h a) acc l = iterOpt h l.length acc := by
  intro l
  induction l with
  | nil => intro acc; rfl
  | cons x xs ih =>
    intro acc
    simp only [optFold, List.length_cons, iterOpt]
    cases hx : h acc with
    | none => rfl
    | some acc2 => exact ih acc2

/-- C3: whenever the destination of a surviving edge is a detected cycle
header (`circles nxt_blk`), unguided `visit` handles the edge by exactly
`loop_maximum_rounds` recursions into the destination with the branch set
restricted to `[conditional_false]`, each feeding the prior output states
(and counters) back in, followed by exactly one final recursion restricted
to `[conditional_true]` — i.e. the edge loop body (`edgeStep`, verbatim the
loop of `visit` by `visit_succ`) equals the spec-shaped `unrollSpec`.
Further conjuncts: the loop-bound constant defaults to 5
(`graph.py` line 48), and on the concrete loop CFG `gLoop` the traversal
emulates the loop body `B` exactly 5 times and the header `H` 5+1 times
before the forced exit through `X`, as the final state's instruction record
shows; `pre` indeed detects `H` there. -/
theorem c3_loop_bounded_unrolling :
    (∀ (S C I : Type) (ctx : Ctx S C I) (fuel : Nat) (has_ret : Bool)
        (blk : String) (circles : Circ) (state_item : SItem S)
        (acc2 : List (SItem S) × Vis) (ty : EdgeType) (nxt_blk : String)
        (state : S),
      lookupA (ctx.bbs_graph blk) ty = some nxt_blk →
      state_item.select ty = some state →
      circles nxt_blk = true →
      edgeStep ctx fuel has_ret blk circles false state_item acc2 ty =
        match unrollSpec ctx fuel state has_ret nxt_blk acc2.2 circles with
        | none => none
        | some es2 => some (acc2.1 ++ es2.1, es2.2)) ∧
    ctxC3.loop_maximum_rounds = 5 ∧ loop_maximum_rounds_default = 5 ∧
    (visit ctxC3 10 [SItem.flat []] false "E" (fun _ => 0)
        (fun b => b == "H") false none).map (fun r => r.1) =
      some [SItem.flat ["E", "H", "f", "B", "H", "f", "B", "H", "f", "B",
        "H", "f", "B", "H", "f", "B", "H", "t", "X"]] ∧
    (pre gLoop 10 "E" (fun _ => 0) (fun _ => false)).map (fun r => r.2 "H") =
      some true := by
  refine ⟨?_, rfl, rfl, by decide, by decide⟩
  intro S C I ctx fuel has_ret blk circles state_item acc2 ty nxt_blk state
    hlk hst hcir
  unfold edgeStep
  rw [hlk]
  dsimp only
  rw [hst]
  dsimp only
  rw [hcir]
  simp only [eq_self_iff_true, ite_true]
  rw [optFold_const
    (fun (es : List (SItem S) × Vis) =>
      visit ctx fuel es.1 has_ret nxt_blk es.2 circles false
        (some [EdgeType.conditional_false]))
    (List.range ctx.loop_maximum_rounds), List.length_range]
  unfold unrollSpec
  cases hit : iterOpt
      (fun (es : List (SItem S) × Vis) =>
        visit ctx fuel es.1 has_ret nxt_blk es.2 circles false
          (some [EdgeType.conditional_false]))
      ctx.loop_maximum_rounds ([SItem.flat state], acc2.2) with
  | none => rfl
  | some es1 => rfl

/-- Witness for `c3_loop_bounded_unrolling` on the loop CFG. -/
theorem c3_witness :
    edgeStep ctxC3 9 false "E" (fun b => b == "H") false (SItem.flat ["E"])
        ([], fun _ => (0 : Int)) EdgeType.fallthrough =
      match unrollSpec ctxC3 9 ["E"] false "H" (fun _ => (0 : Int))
          (fun b => b == "H") with
      | none => none
      | some es2 => some (([] : List (SItem (List String))) ++ es2.1, es2.2) :=
  c3_loop_bounded_unrolling.1 _ _ _ ctxC3 9 false "E" (fun b => b == "H")
    (SItem.flat ["E"]) ([], fun _ => (0 : Int)) EdgeType.fallthrough "H" ["E"]
    (by decide) rfl (by decide)

/-- Erasing the trace of `preT` gives back `pre`: the instrumentation does
not change the computation. -/
theorem preT_eq_pre (g : Cfg) :
    ∀ (fuel : Nat) (blk : String) (vis : VisN) (c : Circ)
      (tr : List (String × Bool)),
      (preT g fuel blk vis c tr).map (fun r => (r.1, r.2.1)) =
        pre g fuel blk vis c := by
  intro fuel
  induction fuel with
  | zero => intro blk vis c tr; rfl
  | succ fuel ih =>
    intro blk vis c tr
    simp only [preT, pre]
    by_cases hg : vis blk = 1 ∧ (g blk).length = 2
    · rw [if_pos hg, if_pos hg]; rfl
    · rw [if_neg hg, if_neg hg]
      have hfold : ∀ (l : List (EdgeType × String))
          (acc : VisN × Circ × List (String × Bool)),
          (optFold (fun acc e => preT g fuel e.2 acc.1 acc.2.1 acc.2.2) acc l).map
              (fun r => (r.1, r.2.1)) =
            optFold (fun acc e => pre g fuel e.2 acc.1 acc.2) (acc.1, acc.2.1) l := by
        intro l
        induction l with
        | nil => intro acc; rfl
        | cons e es ihl =>
          intro acc
          simp only [optFold]
          cases hstep : preT g fuel e.2 acc.1 acc.2.1 acc.2.2 with
          | none =>
            have h2 := ih e.2 acc.1 acc.2.1 acc.2.2
            rw [hstep] at h2
            rw [← h2]
            rfl
          | some mid =>
            have h2 := ih e.2 acc.1 acc.2.1 acc.2.2
            rw [hstep] at h2
            rw [← h2]
            exact ihl mid
      exact hfold (g blk) (updN vis blk 1, c, tr ++ [(blk, decide (vis blk = 1))])

/-- The cycle-header set computed by the (traced) pre-pass, characterised:
starting from `c`, a block is in the output set iff it was already in `c`,
or some call of the walk reached it while it was already marked visited
(a `(x, true)` trace event) and it has exactly two outgoing edges. -/
theorem preT_circles_char (g : Cfg) :
    ∀ (fuel : Nat) (blk : String) (vis : VisN) (c : Circ)
      (tr : List (String × Bool)) (out : VisN × Circ × List (String × Bool)),
      preT g fuel blk vis c tr = some out →
      ∃ trNew, out.2.2 = tr ++ trNew ∧
        ∀ x, (out.2.1 x = true ↔
          c x = true ∨ ((x, true) ∈ trNew ∧ (g x).length = 2)) := by
  intro fuel
  induction fuel with
  | zero => intro blk vis c tr out h; cases h
  | succ fuel ih =>
    intro blk vis c tr out h
    simp only [preT] at h
    by_cases hg : vis blk = 1 ∧ (g blk).length = 2
    · rw [if_pos hg] at h
      cases h
      refine ⟨[(blk, decide (vis blk = 1))], rfl, ?_⟩
      intro x
      by_cases hx : x = blk
      · subst hx
        simp only [updC, if_pos rfl]
        constructor
        · intro _
          exact Or.inr ⟨by simp [decide_eq_true hg.1], hg.2⟩
        · intro _; rfl
      · simp only [updC, if_neg hx]
        constructor
        · intro hc; exact Or.inl hc
        · rintro (hc | ⟨hm, _⟩)
          · exact hc
          · exfalso
            rcases List.mem_singleton.1 hm with he
            exact hx (congrArg Prod.fst he)
    · rw [if_neg hg] at h
      have hfold : ∀ (l : List (EdgeType × String))
          (acc : VisN × Circ × List (String × Bool))
          (out2 : VisN × Circ × List (String × Bool)),
          optFold (fun acc e => preT g fuel e.2 acc.1 acc.2.1 acc.2.2) acc l =
            some out2 →
          ∃ trNew, out2.2.2 = acc.2.2 ++ trNew ∧
            ∀ x, (out2.2.1 x = true ↔
              acc.2.1 x = true ∨ ((x, true) ∈ trNew ∧ (g x).length = 2)) := by
        intro l
        induction l with
        | nil =>
          intro acc out2 h0
          simp only [optFold] at h0
          cases h0
          exact ⟨[], by simp, fun x => by simp⟩
        | cons e es ihl =>
          intro acc out2 h0
          simp only [optFold] at h0
          cases hstep : preT g fuel e.2 acc.1 acc.2.1 acc.2.2 with
          | none => rw [hstep] at h0; cases h0
          | some mid =>
            rw [hstep] at h0
            obtain ⟨t1, ht1, hiff1⟩ := ih e.2 acc.1 acc.2.1 acc.2.2 mid hstep
            obtain ⟨t2, ht2, hiff2⟩ := ihl mid out2 h0
            refine ⟨t1 ++ t2, ?_, ?_⟩
            · rw [ht2, ht1, List.append_assoc]
            · intro x
              rw [hiff2 x, hiff1 x]
              constructor
              · rintro ((hc | ⟨hm, hd⟩) | ⟨hm, hd⟩)
                · exact Or.inl hc
                · exact Or.inr ⟨List.mem_append.2 (Or.inl hm), hd⟩
                · exact Or.inr ⟨List.mem_append.2 (Or.inr hm), hd⟩
              · rintro (hc | ⟨hm, hd⟩)
                · exact Or.inl (Or.inl hc)
                · rcases List.mem_append.1 hm with h1 | h2
                  · exact Or.inl (Or.inr ⟨h1, hd⟩)
                  · exact Or.inr ⟨h2, hd⟩
      obtain ⟨trNew, htr, hiff⟩ :=
        hfold (g blk) (updN vis blk 1, c, tr ++ [(blk, decide (vis blk = 1))]) out h
      refine ⟨(blk, decide (vis blk = 1)) :: trNew, ?_, ?_⟩
      · rw [htr]; simp
      · intro x
        rw [hiff x]
        constructor
        · rintro (hc | ⟨hm, hd⟩)
          · exact Or.inl hc
          · exact Or.inr ⟨List.mem_cons_of_mem _ hm, hd⟩
        · rintro (hc | ⟨hm, hd⟩)
          · exact Or.inl hc
          · rcases List.mem_cons.1 hm with he | hm2
            · exfalso
              have hx : x = blk := congrArg Prod.fst he
              have hb : (true : Bool) = decide (vis blk = 1) := congrArg Prod.snd he
              have hv1 : vis blk = 1 := of_decide_eq_true hb.symm
              exact hg ⟨hv1, hx ▸ hd⟩
            · exact Or.inr ⟨hm2, hd⟩

/-- C4 counterexample.  The claim says only blocks re-visited while on the
current path are classified, and blocks revisited via disjoint non-cyclic
paths are not added.  `gDiamond2` is acyclic (its only walks descend
`A → {B,C} → D → {E,F}`), with two disjoint paths `A,B,D` and `A,C,D` to
the join block `D`, which has exactly two outgoing edges and is never
re-visited on one path.  `pre` (the code) classifies `D` as a cycle header;
`preSpec` (the spec's current-path wording, marks cleared on exit) does
not. -/
theorem c4_counterexample :
    (pre gDiamond2 20 "A" (fun _ => 0) (fun _ => false)).map
        (fun r => r.2 "D") = some true ∧
    (preSpec gDiamond2 20 "A" (fun _ => 0) (fun _ => false)).map
        (fun r => r.2 "D") = some false ∧
    isWalk gDiamond2 ["A", "B", "D"] = true ∧
    isWalk gDiamond2 ["A", "C", "D"] = true ∧
    (gDiamond2 "D").length = 2 :=
  ⟨by decide, by decide, by decide, by decide, by decide⟩

/-- C4 (amended): the pre-pass classifies a block as a cycle header iff it
is reached by some call while already marked visited at any earlier point
of the depth-first walk (marks are never cleared, so this includes
re-visits via disjoint non-cyclic paths) AND it has exactly two outgoing
edges.  First conjunct: the traced pre-pass `preT` erases to `pre`.
Second conjunct: a block is in the output cycle-header set iff it was
there initially or some `(x, already-marked)` trace event exists for it
and its out-degree is exactly two — in particular revisited blocks with an
out-degree other than two are never added. -/
theorem c4_cycle_header_classification :
    (∀ (g : Cfg) (fuel : Nat) (blk : String) (vis : VisN) (c : Circ)
        (tr : List (String × Bool)),
      (preT g fuel blk vis c tr).map (fun r => (r.1, r.2.1)) =
        pre g fuel blk vis c) ∧
    (∀ (g : Cfg) (fuel : Nat) (blk : String) (vis : VisN) (c : Circ)
        (tr : List (String × Bool)) (out : VisN × Circ × List (String × Bool)),
      preT g fuel blk vis c tr = some out →
      ∃ trNew, out.2.2 = tr ++ trNew ∧
        ∀ x, (out.2.1 x = true ↔
          c x = true ∨ ((x, true) ∈ trNew ∧ (g x).length = 2))) :=
  ⟨fun g => preT_eq_pre g, fun g => preT_circles_char g⟩

/-- Witness for `c4_cycle_header_classification` on the two-exit diamond:
the characterisation applies to the concrete run and yields the join block
`D` in the cycle-header set. -/
theorem c4_witness : ∃ (out : VisN × Circ × List (String × Bool))
    (trNew : List (String × Bool)),
    preT gDiamond2 20 "A" (fun _ => 0) (fun _ => false) [] = some out ∧
    out.2.2 = [] ++ trNew ∧
    (∀ x, (out.2.1 x = true ↔
      (fun _ => false) x = true ∨ ((x, true) ∈ trNew ∧ (gDiamond2 x).length = 2))) ∧
    out.2.1 "D" = true := by
  cases hp : preT gDiamond2 20 "A" (fun _ => 0) (fun _ => false) [] with
  | none =>
    have hs : (preT gDiamond2 20 "A" (fun _ => 0) (fun _ => false) []).isSome =
        true := by decide
    rw [hp] at hs
    cases hs
  | some out =>
    obtain ⟨trNew, h1, h2⟩ :=
      c4_cycle_header_classification.2 gDiamond2 20 "A" (fun _ => 0)
        (fun _ => false) [] out hp
    refine ⟨out, trNew, rfl, h1, h2, ?_⟩
    have he := c4_cycle_header_classification.1 gDiamond2 20 "A" (fun _ => 0)
      (fun _ => false) []
    rw [hp] at he
    have hd : (pre gDiamond2 20 "A" (fun _ => 0) (fun _ => false)).map
        (fun r => r.2 "D") = some true := by decide
    rw [← he] at hd
    simpa using hd

/-- A walk's tail is a walk. -/
theorem isWalk_tail (g : Cfg) (a : String) (t : List String)
    (h : isWalk g (a :: t) = true) : isWalk g t = true := by
  cases t with
  | nil => rfl
  | cons b t' =>
    simp only [isWalk, Bool.and_eq_true] at h
    exact h.2

/-- Dropping a prefix of a walk leaves a walk. -/
theorem isWalk_drop_left (g : Cfg) :
    ∀ (u l : List String), isWalk g (u ++ l) = true → isWalk g l = true := by
  intro u
  induction u with
  | nil => intro l h; exact h
  | cons a u ih => intro l h; exact ih l (isWalk_tail g a (u ++ l) h)

/-- A prefix of a walk is a walk. -/
theorem isWalk_append_left (g : Cfg) :
    ∀ (u l : List String), isWalk g (u ++ l) = true → isWalk g u = true := by
  intro u
  induction u with
  | nil => intro l h; rfl
  | cons a u ih =>
    intro l h
    cases u with
    | nil => rfl
    | cons b u' =>
      simp only [List.cons_append, isWalk, Bool.and_eq_true] at h ⊢
      exact ⟨h.1, ih l h.2⟩

/-- Gluing two walks that share the junction block `m`. -/
theorem isWalk_glue (g : Cfg) :
    ∀ (l₁ : List String) (m : String) (l₂ : List String),
      isWalk g l₁ = true → l₁.getLast? = some m → isWalk g (m :: l₂) = true →
      isWalk g (l₁ ++ l₂) = true := by
  intro l₁
  induction l₁ with
  | nil => intro m l₂ _ hl; cases hl
  | cons a l₁ ih =>
    intro m l₂ hw hl hm
    cases l₁ with
    | nil =>
      have : m = a := by
        simp only [List.getLast?_singleton, Option.some.injEq] at hl
        exact hl.symm
      subst this
      exact hm
    | cons b l₁' =>
      simp only [isWalk, Bool.and_eq_true] at hw
      have hl2 : (b :: l₁').getLast? = some m := by
        rwa [List.getLast?_cons_cons] at hl
      simp only [List.cons_append, isWalk, Bool.and_eq_true]
      exact ⟨hw.1, ih m l₂ hw.2 hl2 hm⟩

/-- Extending a walk by one edge at the end. -/
theorem isWalk_snoc (g : Cfg) (l : List String) (m c : String)
    (hw : isWalk g l = true) (hl : l.getLast? = some m)
    (he : isEdge g m c = true) : isWalk g (l ++ [c]) = true := by
  apply isWalk_glue g l m [c] hw hl
  simp only [isWalk, Bool.and_eq_true]
  exact ⟨he, trivial⟩

/-- An adjacency `e ∈ g b` yields the Boolean edge test. -/
theorem isEdge_of_mem (g : Cfg) (b : String) (e : EdgeType × String)
    (he : e ∈ g b) : isEdge g b e.2 = true := by
  simp only [isEdge, List.any_eq_true]
  exact ⟨e, he, by simp⟩

/-- If a fold completed, every list element was processed successfully at
some intermediate accumulator. -/
theorem optFold_mem_some {α σ : Type} (f : σ → α → Option σ) :
    ∀ (l : List α) (acc r : σ), optFold f acc l = some r →
      ∀ x ∈ l, ∃ a b, f a x = some b := by
  intro l
  induction l with
  | nil => intro acc r _ x hx; cases hx
  | cons e es ihl =>
    intro acc r h x hx
    simp only [optFold] at h
    cases hstep : f acc e with
    | none => rw [hstep] at h; cases h
    | some mid =>
      rw [hstep] at h
      rcases List.mem_cons.1 hx with rfl | hx'
      · exact ⟨acc, mid, hstep⟩
      · exact ihl mid r h x hx'

/-- `pre` never clears a visited mark. -/
theorem pre_mono (g : Cfg) :
    ∀ (fuel : Nat) (b : String) (vis : VisN) (c : Circ) (r : VisN × Circ),
      pre g fuel b vis c = some r → ∀ x, vis x = 1 → r.1 x = 1 := by
  intro fuel
  induction fuel with
  | zero => intro b vis c r h; cases h
  | succ fuel ih =>
    intro b vis c r h
    simp only [pre] at h
    split at h
    · cases h; exact fun x hx => hx
    · have hfold : ∀ (l : List (EdgeType × String)) (acc : VisN × Circ)
          (out : VisN × Circ),
          optFold (fun acc e => pre g fuel e.2 acc.1 acc.2) acc l = some out →
          ∀ x, acc.1 x = 1 → out.1 x = 1 := by
        intro l
        induction l with
        | nil => intro acc out h0 x hx; cases h0; exact hx
        | cons e es ihl =>
          intro acc out h0 x hx
          simp only [optFold] at h0
          cases hstep : pre g fuel e.2 acc.1 acc.2 with
          | none => rw [hstep] at h0; cases h0
          | some mid =>
            rw [hstep] at h0
            exact ihl mid out h0 x (ih e.2 acc.1 acc.2 mid hstep x hx)
      intro x hx
      exact hfold (g b) (updN vis b 1, c) r h x
        (by simp only [updN]; split <;> [rfl; exact hx])

/-- `cntUnvis` over a cons. -/
theorem cntUnvis_cons (a : String) (U : List String) (v : VisN) :
    cntUnvis (a :: U) v = (if v a = 1 then 0 else 1) + cntUnvis U v := by
  simp only [cntUnvis, List.filter]
  by_cases h : v a = 1
  · simp [h]
  · simp [h]
    omega

/-- Marks only ever get set, so the unvisited count never grows. -/
theorem cntUnvis_le_of_mono (v w : VisN) (hm : ∀ x, v x = 1 → w x = 1) :
    ∀ U : List String, cntUnvis U w ≤ cntUnvis U v := by
  intro U
  induction U with
  | nil => exact Nat.le_refl 0
  | cons a U ih =>
    rw [cntUnvis_cons, cntUnvis_cons]
    apply Nat.add_le_add _ ih
    by_cases h : v a = 1
    · simp [h, hm a h]
    · split <;> omega

/-- Marking any block does not increase the unvisited count. -/
theorem cntUnvis_updN_le (U : List String) (v : VisN) (b : String) :
    cntUnvis U (updN v b 1) ≤ cntUnvis U v := by
  apply cntUnvis_le_of_mono
  intro x hx
  simp only [updN]
  split <;> [rfl; exact hx]

/-- Marking an unvisited block of the universe strictly decreases the
unvisited count. -/
theorem cntUnvis_updN_lt (U : List String) (v : VisN) (b : String)
    (hb : b ∈ U) (hv : ¬ v b = 1) :
    cntUnvis U (updN v b 1) < cntUnvis U v := by
  induction U with
  | nil => cases hb
  | cons a U ih =>
    rw [cntUnvis_cons, cntUnvis_cons]
    rcases List.mem_cons.1 hb with rfl | hb'
    · have h1 : updN v b 1 b = 1 := by simp [updN]
      rw [if_pos h1, if_neg hv]
      have := cntUnvis_updN_le U v b
      omega
    · have h2 : cntUnvis U (updN v b 1) < cntUnvis U v := ih hb'
      have h3 : (if updN v b 1 a = 1 then 0 else 1) ≤ (if v a = 1 then 0 else 1) := by
        by_cases h : v a = 1
        · have : updN v b 1 a = 1 := by simp only [updN]; split <;> [rfl; exact h]
          simp [h, this]
        · split <;> omega
      omega

/-- A duplicate-free list of members of `U` is no longer than `U`. -/
theorem nodup_subset_length (R U : List String) (hnd : R.Nodup)
    (hsub : ∀ r ∈ R, r ∈ U) : R.length ≤ U.length := by
  have h1 : R.toFinset.card = R.length := List.toFinset_card_of_nodup hnd
  have h2 : R.toFinset ⊆ U.toFinset := by
    intro x hx
    rw [List.mem_toFinset] at hx ⊢
    exact hsub x hx
  calc R.length = R.toFinset.card := h1.symm
    _ ≤ U.toFinset.card := Finset.card_le_card h2
    _ ≤ U.length := U.toFinset_card_le

/-- Termination of the cycle pre-pass: on a finite CFG (universe `U`,
successor-closed) in which every closed walk through `U` contains a block
with exactly two outgoing edges, `pre` completes within any stack depth
exceeding `(unvisited + 1) * (|U| + 2) + (|U| - |R|)`, where `R` is the
current chain of already-visited two-degree-free blocks walked into `b`. -/
theorem pre_term (g : Cfg) (U : List String)
    (hclosed : ∀ b ∈ U, ∀ e ∈ g b, e.2 ∈ U)
    (hcyc : ∀ (w : List String) (h : String), isWalk g w = true →
      (∀ x ∈ w, x ∈ U) → w.head? = some h → w.getLast? = some h →
      2 ≤ w.length → ∃ x ∈ w, (g x).length = 2) :
    ∀ (fuel : Nat) (b : String) (vis : VisN) (c : Circ) (R : List String),
      b ∈ U → isWalk g (R ++ [b]) = true → R.Nodup →
      (∀ r ∈ R, vis r = 1 ∧ (g r).length ≠ 2 ∧ r ∈ U) →
      (cntUnvis U vis + 1) * (U.length + 2) + (U.length - R.length) < fuel →
      (pre g fuel b vis c).isSome = true := by
  intro fuel
  induction fuel with
  | zero =>
    intro b vis c R _ _ _ _ hb
    exact absurd hb (Nat.not_lt_zero _)
  | succ fuel ih =>
    intro b vis c R hbU hwalk hnd hR hbound
    simp only [pre]
    by_cases hg : vis b = 1 ∧ (g b).length = 2
    · rw [if_pos hg]; rfl
    · rw [if_neg hg]
      have main : ∀ (R' : List String),
          R'.Nodup →
          (∀ r ∈ R', updN vis b 1 r = 1 ∧ (g r).length ≠ 2 ∧ r ∈ U) →
          (∀ child : String, isEdge g b child = true →
            isWalk g (R' ++ [child]) = true) →
          (∀ w : VisN, cntUnvis U w ≤ cntUnvis U (updN vis b 1) →
            (cntUnvis U w + 1) * (U.length + 2) + (U.length - R'.length) < fuel) →
          (optFold (fun acc e => pre g fuel e.2 acc.1 acc.2)
            (updN vis b 1, c) (g b)).isSome = true := by
        intro R' hnd' hstat hwalkc hbnd
        have hfold : ∀ (l : List (EdgeType × String)) (acc : VisN × Circ),
            (∀ e ∈ l, e ∈ g b) →
            (∀ r ∈ R', acc.1 r = 1) →
            cntUnvis U acc.1 ≤ cntUnvis U (updN vis b 1) →
            (optFold (fun acc e => pre g fuel e.2 acc.1 acc.2) acc l).isSome =
              true := by
          intro l
          induction l with
          | nil => intro acc _ _ _; rfl
          | cons e es ihl =>
            intro acc hmem hinv hcnt
            have heg : e ∈ g b := hmem e (List.mem_cons_self e es)
            have heU : e.2 ∈ U := hclosed b hbU e heg
            have hsome : (pre g fuel e.2 acc.1 acc.2).isSome = true :=
              ih e.2 acc.1 acc.2 R' heU
                (hwalkc e.2 (isEdge_of_mem g b e heg)) hnd'
                (fun r hr => ⟨hinv r hr, (hstat r hr).2.1, (hstat r hr).2.2⟩)
                (hbnd acc.1 hcnt)
            rcases Option.isSome_iff_exists.1 hsome with ⟨mid, hmid⟩
            simp only [optFold]
            rw [hmid]
            exact ihl mid (fun e2 h2 => hmem e2 (List.mem_cons_of_mem e h2))
              (fun r hr => pre_mono g fuel e.2 acc.1 acc.2 mid hmid r (hinv r hr))
              (le_trans
                (cntUnvis_le_of_mono acc.1 mid.1
                  (fun x hx => pre_mono g fuel e.2 acc.1 acc.2 mid hmid x hx) U)
                hcnt)
        exact hfold (g b) (updN vis b 1, c) (fun e he => he)
          (fun r hr => (hstat r hr).1) (Nat.le_refl _)
      by_cases hv : vis b = 1
      · -- a re-visited block with out-degree ≠ 2: extend the chain by `b`
        have hdeg : (g b).length ≠ 2 := fun h2 => hg ⟨hv, h2⟩
        have hupd : updN vis b 1 = vis := by
          funext x
          simp only [updN]
          split
          · rename_i hx; rw [hx]; exact hv.symm
          · rfl
        have hbR : b ∉ R := by
          intro hmem
          obtain ⟨R₁, R₂, hsplit⟩ := List.append_of_mem hmem
          have hw2 : isWalk g (b :: (R₂ ++ [b])) = true := by
            have heq : R ++ [b] = R₁ ++ (b :: (R₂ ++ [b])) := by
              rw [hsplit]; simp
            rw [heq] at hwalk
            exact isWalk_drop_left g R₁ _ hwalk
          have hmemU : ∀ x ∈ b :: (R₂ ++ [b]), x ∈ U := by
            intro x hx
            rcases List.mem_cons.1 hx with rfl | hx2
            · exact hbU
            · rcases List.mem_append.1 hx2 with h3 | h3
              · refine (hR x ?_).2.2
                rw [hsplit]
                exact List.mem_append.2 (Or.inr (List.mem_cons_of_mem b h3))
              · rw [List.mem_singleton.1 h3]; exact hbU
          have hlast : (b :: (R₂ ++ [b])).getLast? = some b := by
            show ((b :: R₂) ++ [b]).getLast? = some b
            exact List.getLast?_concat _
          have hlen : 2 ≤ (b :: (R₂ ++ [b])).length := by
            simp only [List.length_cons, List.length_append, List.length_singleton]
            omega
          obtain ⟨x, hxw, hxdeg⟩ :=
            hcyc (b :: (R₂ ++ [b])) b hw2 hmemU rfl hlast hlen
          rcases List.mem_cons.1 hxw with rfl | hx2
          · exact hdeg hxdeg
          · rcases List.mem_append.1 hx2 with h3 | h3
            · refine (hR x ?_).2.1 hxdeg
              rw [hsplit]
              exact List.mem_append.2 (Or.inr (List.mem_cons_of_mem b h3))
            · rw [List.mem_singleton.1 h3] at hxdeg
              exact hdeg hxdeg
        have hnd' : (R ++ [b]).Nodup := by
          rw [List.nodup_append]
          exact ⟨hnd, List.nodup_singleton b,
            fun a ha hab => hbR (List.mem_singleton.1 hab ▸ ha)⟩
        have hstat : ∀ r ∈ R ++ [b],
            updN vis b 1 r = 1 ∧ (g r).length ≠ 2 ∧ r ∈ U := by
          intro r hr
          rcases List.mem_append.1 hr with h3 | h3
          · refine ⟨?_, (hR r h3).2.1, (hR r h3).2.2⟩
            simp only [updN]
            split
            · rfl
            · exact (hR r h3).1
          · rw [List.mem_singleton.1 h3]
            refine ⟨?_, hdeg, hbU⟩
            simp [updN]
        have hwalkc : ∀ child : String, isEdge g b child = true →
            isWalk g ((R ++ [b]) ++ [child]) = true := by
          intro child hch
          exact isWalk_snoc g (R ++ [b]) b child hwalk (List.getLast?_concat _) hch
        have hlenR : R.length + 1 ≤ U.length := by
          have := nodup_subset_length (R ++ [b]) U hnd'
            (fun r hr => (hstat r hr).2.2)
          simpa using this
        have hbnd : ∀ w : VisN, cntUnvis U w ≤ cntUnvis U (updN vis b 1) →
            (cntUnvis U w + 1) * (U.length + 2) +
              (U.length - (R ++ [b]).length) < fuel := by
          intro w hle
          rw [hupd] at hle
          have hmul : (cntUnvis U w + 1) * (U.length + 2) ≤
              (cntUnvis U vis + 1) * (U.length + 2) :=
            Nat.mul_le_mul_right _ (by omega)
          have hlen2 : (R ++ [b]).length = R.length + 1 := by simp
          rw [hlen2]
          generalize hPd : (cntUnvis U w + 1) * (U.length + 2) = P at hmul ⊢
          generalize hQd : (cntUnvis U vis + 1) * (U.length + 2) = Q at hmul hbound
          omega
        exact main (R ++ [b]) hnd' hstat hwalkc hbnd
      · -- first visit of `b`: the unvisited count drops, reset the chain
        have hbnd : ∀ w : VisN, cntUnvis U w ≤ cntUnvis U (updN vis b 1) →
            (cntUnvis U w + 1) * (U.length + 2) +
              (U.length - ([] : List String).length) < fuel := by
          intro w hle
          have hlt : cntUnvis U (updN vis b 1) < cntUnvis U vis :=
            cntUnvis_updN_lt U vis b hbU hv
          have hmul : (cntUnvis U w + 1) * (U.length + 2) ≤
              cntUnvis U vis * (U.length + 2) :=
            Nat.mul_le_mul_right _ (by omega)
          have hsm : (cntUnvis U vis + 1) * (U.length + 2) =
              cntUnvis U vis * (U.length + 2) + (U.length + 2) :=
            Nat.succ_mul _ _
          rw [hsm] at hbound
          simp only [List.length_nil, Nat.sub_zero]
          generalize hPd : (cntUnvis U w + 1) * (U.length + 2) = P at hmul ⊢
          generalize hQd : cntUnvis U vis * (U.length + 2) = Q at hmul hbound
          omega
        exact main [] List.nodup_nil (fun r hr => absurd hr (List.not_mem_nil r))
          (fun child _ => rfl) hbnd

/-- Along a walk all of whose blocks have out-degree ≠ 2, the classifying
guard of `pre` never fires, so a completed call needs more stack depth than
the walk is long. -/
theorem walk_fuel (g : Cfg) :
    ∀ (p : List String) (b : String) (fuel : Nat) (vis : VisN) (c : Circ),
      isWalk g (b :: p) = true → (∀ x ∈ b :: p, (g x).length ≠ 2) →
      (pre g fuel b vis c).isSome = true → p.length < fuel := by
  intro p
  induction p with
  | nil =>
    intro b fuel vis c _ _ hs
    cases fuel with
    | zero => simp [pre] at hs
    | succ fuel => exact Nat.succ_pos _
  | cons b' p' ihp =>
    intro b fuel vis c hw hdeg hs
    cases fuel with
    | zero => simp [pre] at hs
    | succ fuel =>
      simp only [pre] at hs
      rw [if_neg (fun hcon => hdeg b (List.mem_cons_self _ _) hcon.2)] at hs
      have hedge : isEdge g b b' = true := by
        simp only [isWalk, Bool.and_eq_true] at hw
        exact hw.1
      obtain ⟨e, he, he2⟩ : ∃ e ∈ g b, e.2 = b' := by
        simp only [isEdge, List.any_eq_true] at hedge
        obtain ⟨e, he, hdec⟩ := hedge
        exact ⟨e, he, of_decide_eq_true hdec⟩
      rcases Option.isSome_iff_exists.1 hs with ⟨r, hr⟩
      obtain ⟨a, out, hstep⟩ := optFold_mem_some _ (g b) _ r hr e he
      rw [he2] at hstep
      have hlt := ihp b' fuel a.1 a.2 (isWalk_tail g b _ hw)
        (fun x hx => hdeg x (List.mem_cons_of_mem b hx))
        (by rw [hstep]; rfl)
      simpa using Nat.succ_lt_succ hlt

/-- A block lying on a closed walk all of whose blocks have out-degree ≠ 2
can be walked from for arbitrarily long, so `pre` started there returns at
no stack depth: the undetectable-cycle divergence. -/
theorem pre_none_of_cycle (g : Cfg) (w : List String) (b0 : String)
    (hw : isWalk g w = true) (hh : w.head? = some b0)
    (hl : w.getLast? = some b0) (hlen : 2 ≤ w.length)
    (hdeg : ∀ x ∈ w, (g x).length ≠ 2) :
    ∀ (fuel : Nat) (vis : VisN) (c : Circ), pre g fuel b0 vis c = none := by
  obtain ⟨t, rfl⟩ : ∃ t, w = b0 :: t := by
    cases w with
    | nil => cases hh
    | cons a t =>
      simp only [List.head?_cons, Option.some.injEq] at hh
      exact ⟨t, by rw [hh]⟩
  have htne : t ≠ [] := by
    intro h
    rw [h] at hlen
    simp at hlen
  have hlt : t.getLast? = some b0 := by
    cases t with
    | nil => exact absurd rfl htne
    | cons c t' => rwa [List.getLast?_cons_cons] at hl
  have hrep : ∀ k : Nat, ∃ q : List String,
      isWalk g (b0 :: q) = true ∧ (∀ x ∈ b0 :: q, x ∈ b0 :: t) ∧
      (b0 :: q).getLast? = some b0 ∧ k ≤ q.length := by
    intro k
    induction k with
    | zero =>
      refine ⟨[], rfl, ?_, rfl, Nat.zero_le _⟩
      intro x hx
      rcases List.mem_singleton.1 hx with rfl
      exact List.mem_cons_self _ _
    | succ k ihk =>
      obtain ⟨q, hq1, hq2, hq3, hq4⟩ := ihk
      refine ⟨q ++ t, ?_, ?_, ?_, ?_⟩
      · have := isWalk_glue g (b0 :: q) b0 t hq1 hq3 hw
        simpa using this
      · intro x hx
        rcases List.mem_cons.1 hx with rfl | hx2
        · exact List.mem_cons_self _ _
        · rcases List.mem_append.1 hx2 with h3 | h3
          · exact hq2 x (List.mem_cons_of_mem _ h3)
          · exact List.mem_cons_of_mem _ h3
      · show ((b0 :: q) ++ t).getLast? = some b0
        rw [List.getLast?_append_of_ne_nil _ htne]
        exact hlt
      · have : 1 ≤ t.length := by
          cases t with
          | nil => exact absurd rfl htne
          | cons _ _ => simp
        simp only [List.length_append]
        omega
  intro fuel vis c
  cases hres : pre g fuel b0 vis c with
  | none => rfl
  | some r =>
    exfalso
    obtain ⟨q, hq1, hq2, hq3, hq4⟩ := hrep fuel
    have hdq : ∀ x ∈ b0 :: q, (g x).length ≠ 2 := fun x hx => hdeg x (hq2 x hx)
    have := walk_fuel g q b0 fuel vis c hq1 hdq (by rw [hres]; rfl)
    omega

/-- A list with a repetition splits around the repeated element. -/
theorem split_of_not_nodup :
    ∀ (l : List String), ¬ l.Nodup →
      ∃ u x v t, l = u ++ x :: v ++ x :: t := by
  intro l
  induction l with
  | nil => intro h; exact absurd List.nodup_nil h
  | cons a l ih =>
    intro h
    by_cases ha : a ∈ l
    · obtain ⟨v, t, hsplit⟩ := List.append_of_mem ha
      exact ⟨[], a, v, t, by rw [hsplit]; rfl⟩
    · have hnl : ¬ l.Nodup := fun hnd => h (List.nodup_cons.2 ⟨ha, hnd⟩)
      obtain ⟨u, x, v, t, hsplit⟩ := ih hnl
      exact ⟨a :: u, x, v, t, by rw [hsplit]; rfl⟩

/-- Every nonempty walk contains a duplicate-free walk with the same
endpoints (cut out the loop between two occurrences of a repeated block). -/
theorem walk_dedup (g : Cfg) :
    ∀ (n : Nat) (w : List String), w.length ≤ n → isWalk g w = true →
      w ≠ [] →
      ∃ w2, isWalk g w2 = true ∧ w2.Nodup ∧ w2.head? = w.head? ∧
        w2.getLast? = w.getLast? := by
  intro n
  induction n with
  | zero =>
    intro w hlen _ hne
    cases w with
    | nil => exact absurd rfl hne
    | cons a t => simp at hlen
  | succ n ihn =>
    intro w hlen hw hne
    by_cases hnd : w.Nodup
    · exact ⟨w, hw, hnd, rfl, rfl⟩
    · obtain ⟨u, x, v, t, hsplit⟩ := split_of_not_nodup w hnd
      have hw2 : isWalk g (u ++ x :: t) = true := by
        have hpre : isWalk g (u ++ [x]) = true := by
          apply isWalk_append_left g (u ++ [x]) (v ++ x :: t)
          have : (u ++ [x]) ++ (v ++ x :: t) = u ++ x :: v ++ x :: t := by simp
          rw [this]
          rw [← hsplit]
          exact hw
        have hsuf : isWalk g (x :: t) = true := by
          apply isWalk_drop_left g (u ++ x :: v) (x :: t)
          have : (u ++ x :: v) ++ (x :: t) = u ++ x :: v ++ x :: t := by simp
          rw [this]
          rw [← hsplit]
          exact hw
        have := isWalk_glue g (u ++ [x]) x t hpre (List.getLast?_concat _) hsuf
        simpa using this
      have hlen2 : (u ++ x :: t).length ≤ n := by
        rw [hsplit] at hlen
        simp only [List.length_append, List.length_cons] at hlen ⊢
        omega
      have hne2 : u ++ x :: t ≠ [] := by simp
      obtain ⟨w2, h1, h2, h3, h4⟩ := ihn (u ++ x :: t) hlen2 hw2 hne2
      refine ⟨w2, h1, h2, ?_, ?_⟩
      · rw [h3, hsplit]
        cases u with
        | nil => rfl
        | cons a u' => rfl
      · rw [h4, hsplit]
        rw [show u ++ x :: v ++ x :: t = (u ++ x :: v) ++ (x :: t) by simp]
        rw [List.getLast?_append_of_ne_nil _ (by simp : (x :: t) ≠ [])]
        rw [List.getLast?_append_of_ne_nil _ (by simp : (x :: t) ≠ [])]

/-- The first-arrival argument along a duplicate-free path `P` ending in a
divergence block `pk`.  First component: a call of `pre` on the head of any
suffix of `P` whose blocks are all unvisited never returns — its expansion
eventually reaches `pk` and inherits its divergence.  Second component: a
call that does return and is not rooted in such a suffix never marks any of
the suffix's blocks (otherwise it would itself have diverged first). -/
theorem pre_suffix_none (g : Cfg) (P : List String) (pk : String)
    (hPw : isWalk g P = true) (hPnd : P.Nodup) (hPlast : P.getLast? = some pk)
    (hnone : ∀ (fuel : Nat) (vis : VisN) (c : Circ), pre g fuel pk vis c = none) :
    ∀ fuel : Nat,
      (∀ (b : String) (p : List String) (vis : VisN) (c : Circ),
        (b :: p) <:+ P → (∀ x ∈ b :: p, vis x ≠ 1) →
        pre g fuel b vis c = none) ∧
      (∀ (y : String) (vis : VisN) (c : Circ) (r : VisN × Circ),
        pre g fuel y vis c = some r →
        ∀ (b : String) (p : List String),
          (b :: p) <:+ P → (∀ x ∈ b :: p, vis x ≠ 1) → y ∉ b :: p →
          (∀ x ∈ b :: p, r.1 x ≠ 1)) := by
  intro fuel
  induction fuel with
  | zero =>
    constructor
    · intro b p vis c _ _; rfl
    · intro y vis c r h; cases h
  | succ fuel ihf =>
    obtain ⟨Sf, Ef⟩ := ihf
    constructor
    · intro b p vis c hsuf hvis
      cases p with
      | nil =>
        have hb : b = pk := by
          obtain ⟨u, hu⟩ := hsuf
          rw [← hu] at hPlast
          rw [List.getLast?_concat] at hPlast
          exact Option.some.inj hPlast
        rw [hb]
        exact hnone _ _ _
      | cons b' p' =>
        simp only [pre]
        have hvb : vis b ≠ 1 := hvis b (List.mem_cons_self _ _)
        rw [if_neg (fun hcon => hvb hcon.1)]
        have hsuf2 : (b' :: p') <:+ P :=
          List.IsSuffix.trans (List.suffix_cons b _) hsuf
        have hwalkP : isWalk g (b :: b' :: p') = true := by
          obtain ⟨u, hu⟩ := hsuf
          rw [← hu] at hPw
          exact isWalk_drop_left g u _ hPw
        have hedge : isEdge g b b' = true := by
          simp only [isWalk, Bool.and_eq_true] at hwalkP
          exact hwalkP.1
        obtain ⟨e0, he0, he0b⟩ : ∃ e ∈ g b, e.2 = b' := by
          simp only [isEdge, List.any_eq_true] at hedge
          obtain ⟨e, he, hdec⟩ := hedge
          exact ⟨e, he, of_decide_eq_true hdec⟩
        have hbn : b ∉ b' :: p' := by
          obtain ⟨u, hu⟩ := hsuf
          have hnd2 : (b :: b' :: p').Nodup := by
            rw [← hu] at hPnd
            exact List.Nodup.of_append_right hPnd
          exact (List.nodup_cons.1 hnd2).1
        have hfold : ∀ (l : List (EdgeType × String)) (acc : VisN × Circ),
            (∃ e ∈ l, e.2 = b') → (∀ x ∈ b' :: p', acc.1 x ≠ 1) →
            optFold (fun acc e => pre g fuel e.2 acc.1 acc.2) acc l = none := by
          intro l
          induction l with
          | nil =>
            intro acc hex _
            obtain ⟨e, he, _⟩ := hex
            cases he
          | cons e es ihl =>
            intro acc hex hinv
            simp only [optFold]
            cases hstep : pre g fuel e.2 acc.1 acc.2 with
            | none => rfl
            | some mid =>
              by_cases hmem : e.2 ∈ b' :: p'
              · exfalso
                obtain ⟨l₁, l₂, hsp⟩ := List.append_of_mem hmem
                have hsuf3 : (e.2 :: l₂) <:+ P :=
                  List.IsSuffix.trans ⟨l₁, hsp.symm⟩ hsuf2
                have hZ : pre g fuel e.2 acc.1 acc.2 = none :=
                  Sf e.2 l₂ acc.1 acc.2 hsuf3
                    (fun x hx => hinv x (by
                      rw [hsp]; exact List.mem_append.2 (Or.inr hx)))
                rw [hZ] at hstep
                cases hstep
              · have hinv2 :=
                  Ef e.2 acc.1 acc.2 mid hstep b' p' hsuf2 hinv hmem
                obtain ⟨e1, he1, he1b⟩ := hex
                rcases List.mem_cons.1 he1 with rfl | he1es
                · exact absurd (he1b ▸ List.mem_cons_self e1.2 p') hmem
                · exact ihl mid ⟨e1, he1es, he1b⟩ hinv2
        apply hfold (g b) (updN vis b 1, c) ⟨e0, he0, he0b⟩
        intro x hx
        have hxb : x ≠ b := fun hxeq => hbn (hxeq ▸ hx)
        simp only [updN, if_neg hxb]
        exact hvis x (List.mem_cons_of_mem b hx)
    · intro y vis c r h b p hsuf hvisv hyn
      simp only [pre] at h
      split at h
      · cases h
        intro x hx
        exact hvisv x hx
      · have hfoldE : ∀ (l : List (EdgeType × String)) (acc : VisN × Circ)
            (out : VisN × Circ),
            optFold (fun acc e => pre g fuel e.2 acc.1 acc.2) acc l = some out →
            (∀ x ∈ b :: p, acc.1 x ≠ 1) → (∀ x ∈ b :: p, out.1 x ≠ 1) := by
          intro l
          induction l with
          | nil =>
            intro acc out h0 hinv
            cases h0
            exact hinv
          | cons e es ihl =>
            intro acc out h0 hinv
            simp only [optFold] at h0
            cases hstep : pre g fuel e.2 acc.1 acc.2 with
            | none => rw [hstep] at h0; cases h0
            | some mid =>
              rw [hstep] at h0
              by_cases hmem : e.2 ∈ b :: p
              · exfalso
                obtain ⟨l₁, l₂, hsp⟩ := List.append_of_mem hmem
                have hsuf3 : (e.2 :: l₂) <:+ P :=
                  List.IsSuffix.trans ⟨l₁, hsp.symm⟩ hsuf
                have hZ : pre g fuel e.2 acc.1 acc.2 = none :=
                  Sf e.2 l₂ acc.1 acc.2 hsuf3
                    (fun x hx => hinv x (by
                      rw [hsp]; exact List.mem_append.2 (Or.inr hx)))
                rw [hZ] at hstep
                cases hstep
              · exact ihl mid out h0
                  (Ef e.2 acc.1 acc.2 mid hstep b p hsuf hinv hmem)
        apply hfoldE (g y) (updN vis y 1, c) r h
        intro x hx
        have hxy : x ≠ y := fun he => hyn (he ▸ hx)
        simp only [updN, if_neg hxy]
        exact hvisv x hx

/-- C10 counterexample.  The claim's non-termination half quantifies over
every finite CFG containing an all-degree-≠-2 cycle, with no reachability
condition: in `gDetached` the one-edge self-loop on `s` is such a cycle,
yet `pre` started at the terminal start block `a` returns at stack depth 2
— it never reaches the cycle. -/
theorem c10_counterexample :
    (pre gDetached 2 "a" (fun _ => 0) (fun _ => false)).isSome = true ∧
    isWalk gDetached ["s", "s"] = true ∧
    (∀ x ∈ ["s", "s"], (gDetached x).length ≠ 2) :=
  ⟨by decide, by decide, by decide⟩

/-- C10 (amended): (1) `pre` terminates on every finite CFG (universe `U`
closed under successors) in which every cycle — every closed walk through
`U` — contains at least one block with exactly two outgoing edges: some
stack depth suffices.  (2) On a CFG with a cycle reachable from the start
block none of whose blocks has exactly two outgoing edges (e.g. a one-edge
self-loop), `pre` returns at no stack depth whatsoever — the recursion
never terminates, because visited marks are never cleared and a revisited
block with an out-degree other than two is expanded again. -/
theorem c10_pre_termination :
    (∀ (g : Cfg) (U : List String) (start : String),
      start ∈ U → (∀ b ∈ U, ∀ e ∈ g b, e.2 ∈ U) →
      (∀ (w : List String) (h : String), isWalk g w = true →
        (∀ x ∈ w, x ∈ U) → w.head? = some h → w.getLast? = some h →
        2 ≤ w.length → ∃ x ∈ w, (g x).length = 2) →
      ∃ fuel, (pre g fuel start (fun _ => 0) (fun _ => false)).isSome = true) ∧
    (∀ (g : Cfg) (start pk : String) (p w : List String),
      isWalk g p = true → p.head? = some start → p.getLast? = some pk →
      isWalk g w = true → w.head? = some pk → w.getLast? = some pk →
      2 ≤ w.length → (∀ x ∈ w, (g x).length ≠ 2) →
      ∀ fuel, pre g fuel start (fun _ => 0) (fun _ => false) = none) := by
  constructor
  · intro g U start hsU hclosed hcyc
    refine ⟨(cntUnvis U (fun _ => 0) + 1) * (U.length + 2) + U.length + 1, ?_⟩
    apply pre_term g U hclosed hcyc _ start (fun _ => 0) (fun _ => false) []
      hsU rfl List.nodup_nil (fun r hr => absurd hr (List.not_mem_nil r))
    simp only [List.length_nil, Nat.sub_zero]
    generalize (cntUnvis U (fun _ => 0) + 1) * (U.length + 2) = Q
    omega
  · intro g start pk p w hpw hph hpl hww hwh hwl hwlen hwdeg fuel
    have hpne : p ≠ [] := by
      intro h
      rw [h] at hph
      cases hph
    obtain ⟨P, hP1, hP2, hP3, hP4⟩ :=
      walk_dedup g p.length p (Nat.le_refl _) hpw hpne
    rw [hph] at hP3
    rw [hpl] at hP4
    have hnone : ∀ (fuel : Nat) (vis : VisN) (c : Circ),
        pre g fuel pk vis c = none :=
      pre_none_of_cycle g w pk hww hwh hwl hwlen hwdeg
    obtain ⟨t, rfl⟩ : ∃ t, P = start :: t := by
      cases P with
      | nil => cases hP3
      | cons a t =>
        simp only [List.head?_cons, Option.some.injEq] at hP3
        exact ⟨t, by rw [hP3]⟩
    exact (pre_suffix_none g (start :: t) pk hP1 hP2 hP4 hnone fuel).1
      start t (fun _ => 0) (fun _ => false) (List.suffix_refl _)
      (fun x _ => by simp)

/-- Witness for `c10_pre_termination`: the conditional self-loop `gSelfLoop`
(every cycle passes through the two-edged header `H`) terminates; the
reachable one-edge self-loop `gReachLoop` never lets `pre` return. -/
theorem c10_witness :
    (∃ fuel, (pre gSelfLoop fuel "H" (fun _ => 0) (fun _ => false)).isSome =
      true) ∧
    pre gReachLoop 7 "start" (fun _ => 0) (fun _ => false) = none := by
  constructor
  · apply c10_pre_termination.1 gSelfLoop ["H", "X"] "H" (by decide) (by decide)
    intro w h hw hmem hh hl hlen
    cases w with
    | nil => simp at hlen
    | cons a w' =>
      cases w' with
      | nil => simp at hlen
      | cons b t =>
        have hedge : isEdge gSelfLoop a b = true := by
          simp only [isWalk, Bool.and_eq_true] at hw
          exact hw.1
        have ha : a = "H" := by
          by_contra hne
          have hempty : gSelfLoop a = [] := by
            simp [gSelfLoop, hne]
          rw [isEdge, hempty] at hedge
          cases hedge
        exact ⟨a, List.mem_cons_self _ _, by rw [ha]; decide⟩
  · exact c10_pre_termination.2 gReachLoop "start" "s" ["start", "s"]
      ["s", "s"] (by decide) (by decide) (by decide) (by decide) (by decide)
      (by decide) (by decide) (by decide) 7

end Graph

end SeeWasm
